import Mathlib

/-!
Verification of the lem-in ant-colony simulator (Go) against its
natural-language specification.

The Go program parses a colony description (rooms, tunnels, an ant count),
enumerates simple start→end paths by depth-first search, distributes the
ants over the paths, and simulates turn-based movement under a
one-ant-per-interior-room rule.

Shallow embedding conventions:
* Go `float64` arithmetic is modelled by exact rationals (`Rat`).  The
  constants appearing in the source (0.8, 0.5, 0.6, 0.4, 1.5, …) are all
  small decimal fractions; we represent them exactly (e.g. `mkRat 4 5`
  for `0.8`).  Because Batteries marks `Rat.add` etc. `@[irreducible]`,
  we define kernel-reducible clones (`qadd`, `qmul`, …) via `mkRat` and
  prove once that they agree with the Mathlib operations.
* Go `int` is modelled by `Int`; `int(x)` conversion of a nonnegative
  float truncates, i.e. is `qfloor` here.
* Go maps used as sets (`map[string]bool`) are modelled by `List String`
  with `List.contains`.
* Unbounded `for` loops are modelled with an explicit fuel parameter plus
  a boolean "completed" flag; theorems show enough fuel exists.
* `sort.Slice` is modelled as a stable insertion sort; for the slice
  sizes arising here (fewer than 12 elements) Go's sort.Slice is exactly
  insertion sort, which is stable with respect to the current slice
  order, so the model is behaviour-exact for the concrete runs below.
-/

set_option maxRecDepth 8000

namespace LemIn

/-! ## Exact rational arithmetic (kernel-reducible stand-ins for float64) -/

/-- Addition on `Rat` by the textbook formula, kernel-reducible. -/
def qadd (a b : Rat) : Rat := mkRat (a.num * b.den + b.num * a.den) (a.den * b.den)

/-- Multiplication on `Rat`, kernel-reducible. -/
def qmul (a b : Rat) : Rat := mkRat (a.num * b.num) (a.den * b.den)

/-- Negation on `Rat`, kernel-reducible. -/
def qneg (a : Rat) : Rat := mkRat (-a.num) a.den

/-- Subtraction on `Rat`, kernel-reducible. -/
def qsub (a b : Rat) : Rat := qadd a (qneg b)

/-- Division on `Rat`, kernel-reducible.  Division by zero yields zero,
matching the Mathlib convention (our theorems never divide by zero). -/
def qdiv (a b : Rat) : Rat :=
  if 0 ≤ b.num then mkRat (a.num * b.den) (a.den * b.num.toNat)
  else mkRat (-(a.num * b.den)) (a.den * (-b.num).toNat)

/-- `math.Min` on our rationals. -/
def qmin (a b : Rat) : Rat := if a ≤ b then a else b

/-- `math.Max` on our rationals. -/
def qmax (a b : Rat) : Rat := if a ≤ b then b else a

/-- Floor of a rational as an integer, kernel-reducible. -/
def qfloor (q : Rat) : Int := q.num / (q.den : Int)

/-- Ceiling of a rational as an integer, kernel-reducible. -/
def qceil (q : Rat) : Int := -(qfloor (qneg q))

/-- Go's `int(x)` conversion on a float: truncation toward zero. -/
def goInt (q : Rat) : Int := if 0 ≤ q then qfloor q else qceil q

theorem den_cast_ne_zero (a : Rat) : ((a.den : ℚ)) ≠ 0 :=
  (Nat.cast_ne_zero (R := ℚ)).mpr a.den_nz

theorem qneg_eq (a : Rat) : qneg a = -a := by
  unfold qneg
  rw [Rat.mkRat_eq_div, Int.cast_neg, neg_div, Rat.num_div_den]

theorem qadd_eq (a b : Rat) : qadd a b = a + b := by
  have ha := den_cast_ne_zero a
  have hb := den_cast_ne_zero b
  unfold qadd
  rw [Rat.mkRat_eq_div]
  conv_rhs => rw [← Rat.num_div_den a, ← Rat.num_div_den b]
  push_cast
  field_simp

theorem qmul_eq (a b : Rat) : qmul a b = a * b := by
  have ha := den_cast_ne_zero a
  have hb := den_cast_ne_zero b
  unfold qmul
  rw [Rat.mkRat_eq_div]
  conv_rhs => rw [← Rat.num_div_den a, ← Rat.num_div_den b]
  push_cast
  field_simp

theorem qsub_eq (a b : Rat) : qsub a b = a - b := by
  unfold qsub
  rw [qneg_eq, qadd_eq, sub_eq_add_neg]

theorem qdiv_zero (a : Rat) : qdiv a 0 = 0 := by
  have h0 : (0 : ℚ).num = 0 := rfl
  simp [qdiv, h0, mkRat]

theorem qdiv_eq (a b : Rat) : qdiv a b = a / b := by
  rcases eq_or_ne b 0 with rfl | hb0
  · rw [qdiv_zero, div_zero]
  · have ha := den_cast_ne_zero a
    have hbnumz : b.num ≠ 0 := Rat.num_ne_zero.mpr hb0
    have hbnum : ((b.num : ℚ)) ≠ 0 := by exact_mod_cast hbnumz
    unfold qdiv
    rcases le_or_lt 0 b.num with hpos | hneg
    · have htn : (b.num.toNat : Int) = b.num := Int.toNat_of_nonneg hpos
      have htnq : ((b.num.toNat : ℚ)) = (b.num : ℚ) := by exact_mod_cast htn
      rw [if_pos hpos, Rat.mkRat_eq_div]
      conv_rhs => rw [← Rat.num_div_den a, ← Rat.num_div_den b]
      push_cast
      rw [htnq]
      field_simp
    · have htn : ((-b.num).toNat : Int) = -b.num := Int.toNat_of_nonneg (by omega)
      have htnq : (((-b.num).toNat : ℚ)) = -(b.num : ℚ) := by exact_mod_cast htn
      rw [if_neg (by omega), Rat.mkRat_eq_div]
      conv_rhs => rw [← Rat.num_div_den a, ← Rat.num_div_den b]
      push_cast
      rw [htnq]
      field_simp

theorem qmin_eq (a b : Rat) : qmin a b = min a b := by
  unfold qmin; rw [min_def]

theorem qmax_eq (a b : Rat) : qmax a b = max a b := by
  unfold qmax; rw [max_def]

theorem qfloor_eq (q : Rat) : qfloor q = ⌊q⌋ := by
  unfold qfloor; rw [Rat.floor_def]

theorem qceil_eq (q : Rat) : qceil q = ⌈q⌉ := by
  unfold qceil
  rw [qfloor_eq, qneg_eq, ← Int.ceil_neg, neg_neg]

/-! ## Data model — `pkg/colony/types.go` -/

/-- A room of the ant farm (`colony.Room`). -/
structure Room where
  name : String
  x : Int
  y : Int
  isStart : Bool
  isEnd : Bool
deriving DecidableEq, Repr

/-- A tunnel between two rooms (`colony.Tunnel`); Go fields `From`/`To`. -/
structure Tunnel where
  fromName : String
  toName : String
deriving DecidableEq, Repr

/-- The colony (`colony.Colony`).  The Go `Rooms` map is modelled as an
association list with overwrite-on-insert; the embedded code only ever
looks rooms up by name. -/
structure Colony where
  numAnts : Int
  rooms : List (String × Room)
  tunnels : List Tunnel
  start : String
  endRoom : String
  input : List String
deriving DecidableEq, Repr

/-- `colony.NewColony()`. -/
def NewColony : Colony :=
  { numAnts := 0, rooms := [], tunnels := [], start := "", endRoom := "", input := [] }

/-- Insert into the rooms map, overwriting an existing binding
(`c.Rooms[name] = room`). -/
def roomsInsert (rs : List (String × Room)) (name : String) (room : Room) :
    List (String × Room) :=
  match rs with
  | [] => [(name, room)]
  | (n, r) :: rest =>
      if n = name then (name, room) :: rest else (n, r) :: roomsInsert rest name room

/-- Map lookup `c.Rooms[name]`; a missing key yields the zero `Room`
(the Go code only dereferences rooms that exist). -/
def roomsFind (rs : List (String × Room)) (name : String) : Room :=
  match rs with
  | [] => { name := "", x := 0, y := 0, isStart := false, isEnd := false }
  | (n, r) :: rest => if n = name then r else roomsFind rest name

/-- Map membership test `_, exists := c.Rooms[name]`. -/
def roomsMem (rs : List (String × Room)) (name : String) : Bool :=
  match rs with
  | [] => false
  | (n, _) :: rest => n = name || roomsMem rest name

/-! ## Path enumeration — `pkg/pathfinder/pathfinder.go` -/

/-- A path is a sequence of room names (`pathfinder.Path`). -/
abbrev Path := List String

/-- The neighbour computed from one tunnel inside the dfs loop:
`if tunnel.From == current { next = tunnel.To } else if tunnel.To == current { next = tunnel.From }`
with `next` zero-initialised to the empty string. -/
def tunnelNext (t : Tunnel) (current : String) : String :=
  if t.fromName = current then t.toName
  else if t.toName = current then t.fromName
  else ""

/-- The list of rooms the dfs loop recurses into from `current`:
each tunnel contributes its far end when it is nonempty and unvisited
(`next != "" && !visited[next]`).  This is also exactly the body of
`getNextRooms` in the scored-pathfinder variant of the repository. -/
def getNextRooms (tunnels : List Tunnel) (current : String) (visited : List String) :
    List String :=
  tunnels.filterMap fun t =>
    let next := tunnelNext t current
    if next ≠ "" ∧ visited.contains next = false then some next else none

/-- Depth-first path enumeration, generic in the neighbour-enumeration
function so that both pathfinder variants of the repository instantiate
it.  `fuel` bounds the recursion depth; every run of the Go function is
reproduced by a large enough fuel, and all safety theorems below hold
for every fuel. -/
def dfsGen (endRoom : String) (nexts : String → List String → List String) :
    Nat → String → List String → Path → List Path
  | 0, _, _, _ => []
  | fuel + 1, current, visited, path =>
      if current = endRoom then [path]
      else
        let visited2 := current :: visited
        ((nexts current visited2).map
          (fun next => dfsGen endRoom nexts fuel next visited2 (path ++ [next]))).flatten

/-- `pathfinder.dfs` of `pkg/pathfinder/pathfinder.go`, started the way
`FindPaths` starts it. -/
def dfsPaths (c : Colony) (fuel : Nat) : List Path :=
  dfsGen c.endRoom (fun cur vis => getNextRooms c.tunnels cur vis) fuel c.start [] [c.start]

/-- Inner loop of the length sort in `FindPaths`:
`for j := i+1; j < len(paths); j++ { if len(paths[i]) > len(paths[j]) { swap } }`.
The first argument is structural fuel; callers supply the list length, which
makes the function identical to the Go loop. -/
def lenSortInner : Nat → List Path → Nat → Nat → List Path
  | 0, ps, _, _ => ps
  | fuel + 1, ps, i, j =>
      if j < ps.length then
        let pi := ps.getD i []
        let pj := ps.getD j []
        let ps2 := if pi.length > pj.length then (ps.set i pj).set j pi else ps
        lenSortInner fuel ps2 i (j + 1)
      else ps

/-- Outer loop of the length sort in `FindPaths`. -/
def lenSortOuter : Nat → List Path → Nat → List Path
  | 0, ps, _ => ps
  | fuel + 1, ps, i =>
      if i + 1 < ps.length then
        lenSortOuter fuel (lenSortInner ps.length ps i (i + 1)) (i + 1)
      else ps

/-- The selection-style length sort of `pathfinder.FindPaths`. -/
def lenSort (ps : List Path) : List Path := lenSortOuter ps.length ps 0

/-- `pathfinder.FindPaths` of `pkg/pathfinder/pathfinder.go`: all simple
start→end paths found by dfs, sorted by length. -/
def FindPaths (c : Colony) (fuel : Nat) : List Path := lenSort (dfsPaths c fuel)

/-! ## Simulator — `pkg/simulator/simulator.go` -/

/-- An ant (`simulator.Ant`). -/
structure Ant where
  id : Int
  path : Path
  position : Int
  pathIndex : Int
  delay : Int
deriving DecidableEq, Repr

/-- Per-path bookkeeping (`simulator.PathState`). -/
structure PathState where
  path : Path
  antsCount : Int
  lastAntEnd : Rat
  efficiency : Rat
deriving DecidableEq, Repr

/-- Cast an integer into our rationals, kernel-reducibly. -/
def intToQ (i : Int) : Rat := mkRat i 1

theorem intToQ_eq (i : Int) : intToQ i = (i : ℚ) := by
  unfold intToQ
  rw [Rat.mkRat_eq_div, Nat.cast_one, div_one]

/-- Number of tunnels touching a room; the connection-counting loop that
appears in `calculatePathEfficiency` (and again in the scored pathfinder). -/
def countConnections (tunnels : List Tunnel) (room : String) : Nat :=
  (tunnels.filter (fun t => t.fromName == room || t.toName == room)).length

/-- `simulator.calculatePathEfficiency`. -/
def calculatePathEfficiency (path : Path) (c : Colony) : Rat :=
  if path.length ≤ 2 then 1
  else
    let lengthFactor := qdiv 1 (intToQ (path.length : Int))
    let interior := (path.drop 1).dropLast
    let connSum : Int := (interior.map (fun room => (countConnections c.tunnels room : Int))).sum
    let connectivityFactor := qdiv (intToQ connSum) (intToQ ((path.length : Int) - 2))
    let connectivityFactor := qmin (qdiv connectivityFactor (intToQ 4)) 1
    qadd (qmul lengthFactor (mkRat 3 5)) (qmul connectivityFactor (mkRat 2 5))

/-- `simulator.initializePathStates`. -/
def initializePathStates (paths : List Path) (c : Colony) : List PathState :=
  paths.map fun path =>
    { path := path, antsCount := 0,
      lastAntEnd := intToQ ((path.length : Int) - 1),
      efficiency := calculatePathEfficiency path c }

/-- `simulator.calculateTimeEstimate`. -/
def calculateTimeEstimate (state : PathState) (remainingAnts : Int) : Rat :=
  let pathLength := intToQ ((state.path.length : Int) - 1)
  let currentLoad := intToQ state.antsCount
  let baseTime := pathLength
  let interferenceTime := qmul (qmul currentLoad (mkRat 4 5)) (qsub 1 state.efficiency)
  let capacityFactor := qmax 0 (qsub 1 (qdiv currentLoad pathLength))
  qadd (qadd baseTime interferenceTime)
    (qmul (qmul (qsub 1 capacityFactor) (intToQ remainingAnts)) (mkRat 1 2))

/-- `simulator.calculateOptimalAntsForPath`.  Go computes
`int(math.Ceil(t / (pathLength * efficiency)))`; `math.Ceil` yields an
integral float, so the `int` conversion is exact. -/
def calculateOptimalAntsForPath (state : PathState) (remainingAnts : Int)
    (targetTime : Rat) : Int :=
  let pathLength := intToQ ((state.path.length : Int) - 1)
  let maxAnts := qceil (qdiv targetTime (qmul pathLength state.efficiency))
  min maxAnts remainingAnts

/-- `simulator.calculateAntDelay`. -/
def calculateAntDelay (state : PathState) (antNumber : Int) : Int :=
  if antNumber = 0 then 0
  else
    let baseDelay := goInt (qmul (qmul (intToQ antNumber) (qsub 1 state.efficiency)) (mkRat 3 2))
    min baseDelay ((state.path.length : Int) - 2)

/-- The best-path scan inside `distributeAnts`.  Go initialises
`bestTime := math.MaxFloat64`, which every finite estimate beats; we model
the sentinel as `none`. -/
def findBestPathAux : List PathState → Int → Int → Int → Option Rat → Int × Option Rat
  | [], _, _, best, bt => (best, bt)
  | s :: rest, remaining, i, best, bt =>
      let t := calculateTimeEstimate s remaining
      match bt with
      | none => findBestPathAux rest remaining (i + 1) i (some t)
      | some b =>
          if t < b then findBestPathAux rest remaining (i + 1) i (some t)
          else findBestPathAux rest remaining (i + 1) best bt

/-- Scan all path states for the lowest estimated completion time. -/
def findBestPath (states : List PathState) (remaining : Int) : Int × Option Rat :=
  findBestPathAux states remaining 0 (-1) none

/-- The batch-assignment loop inside `distributeAnts`. -/
def batchAnts (state : PathState) (bestPath : Int) (antsForPath : Int)
    (antIndex : Int) : List Ant :=
  (List.range antsForPath.toNat).map fun i : Nat =>
    { id := antIndex + (i : Int) + 1, path := state.path, pathIndex := bestPath,
      position := -1, delay := calculateAntDelay state (i : Int) }

/-- `pathStates[bestPath].antsCount += antsForPath; lastAntEnd += antsForPath*0.8`. -/
def updatePathState : List PathState → Nat → Int → List PathState
  | [], _, _ => []
  | s :: rest, 0, n =>
      { s with antsCount := s.antsCount + n,
               lastAntEnd := qadd s.lastAntEnd (qmul (intToQ n) (mkRat 4 5)) } :: rest
  | s :: rest, i + 1, n => s :: updatePathState rest i n

/-- Zero value used for (never occurring) out-of-range state lookups. -/
def defaultPathState : PathState :=
  { path := [], antsCount := 0, lastAntEnd := 0, efficiency := 0 }

/-- `pathStates[i]`. -/
def getStateD (states : List PathState) (i : Nat) : PathState :=
  states.getD i defaultPathState

/-- One round of `distributeAnts`, recorded for the round-structure
theorems: which path was chosen, at which estimate, with which batch. -/
structure Round where
  bestPath : Int
  bestTime : Rat
  stateAtChoice : PathState
  remainingBefore : Int
  antsForPath : Int
deriving DecidableEq, Repr

/-- The `for remainingAnts > 0` loop of `simulator.distributeAnts`; `fuel`
is structural fuel and the final `Bool` is true iff the Go loop exited
(rather than the fuel running out). -/
def distGo : Nat → List PathState → Int → Int → List Ant × List PathState × List Round × Bool
  | 0, states, remaining, _ => ([], states, [], decide (remaining ≤ 0))
  | fuel + 1, states, remaining, antIndex =>
      if remaining > 0 then
        match h : findBestPath states remaining with
        | (_, none) => ([], states, [], true)
        | (bestPath, some bestTime) =>
            let st := getStateD states bestPath.toNat
            let antsForPath := calculateOptimalAntsForPath st remaining bestTime
            let newAnts := batchAnts st bestPath antsForPath antIndex
            let states2 := updatePathState states bestPath.toNat antsForPath
            let r := distGo fuel states2 (remaining - antsForPath) (antIndex + antsForPath)
            (newAnts ++ r.1, r.2.1, ⟨bestPath, bestTime, st, remaining, antsForPath⟩ :: r.2.2.1, r.2.2.2)
      else ([], states, [], true)

/-- `simulator.distributeAnts`.  `numAnts + 1` rounds of fuel suffice
because every completed round assigns at least one ant (proved below). -/
def distributeAnts (numAnts : Int) (pathStates : List PathState) :
    List Ant × List PathState × List Round × Bool :=
  distGo (numAnts.toNat + 1) pathStates numAnts 0

/-- `simulator.getNextRoom`. -/
def getNextRoom (ant : Ant) : String :=
  if ant.position = -1 then ant.path.getD 0 ""
  else ant.path.getD (ant.position + 1).toNat ""

/-- `simulator.canMoveToRoom`. -/
def canMoveToRoom (room : String) (occupancy : List String) (c : Colony) : Bool :=
  room == c.start || room == c.endRoom || !(occupancy.contains room)

/-- `simulator.updateAntPosition` (the occupancy marking it also performs
is threaded at the call site, where Go mutates the shared map). -/
def updateAntPosition (ant : Ant) : Ant :=
  if ant.position = -1 then { ant with position := 0 }
  else { ant with position := ant.position + 1 }

/-- `simulator.getAntPriority`. -/
def getAntPriority (ant : Ant) (currentTurn : Int) : Rat :=
  if ant.position = (ant.path.length : Int) - 1 then qneg 1
  else
    let progress := qdiv (intToQ (ant.position + 1)) (intToQ (ant.path.length : Int))
    let progress := if ant.position > -1 then qadd progress (mkRat 1 2) else progress
    let progress :=
      if ant.position = -1 ∧ ant.delay ≤ currentTurn then qadd progress (mkRat 3 10)
      else progress
    progress

/-- `simulator.sortAntsByPriority`: `sort.Slice` with the comparator
`getAntPriority(ants[i]) > getAntPriority(ants[j])`, modelled as the
stable insertion sort Go actually performs on fewer than 12 elements.
The `endRoom` parameter is unused, exactly as in the source. -/
def sortAntsByPriority (ants : List Ant) (endRoom : String) (currentTurn : Int) :
    List Ant :=
  List.insertionSort
    (fun a b => getAntPriority a currentTurn ≥ getAntPriority b currentTurn) ants

/-- `strings.Join(turnMoves, " ")`. -/
def joinSpace : List String → String
  | [] => ""
  | [x] => x
  | x :: rest => x ++ " " ++ joinSpace rest

/-- The per-ant body of the turn loop in `simulateAntMovements`, threading
the per-turn occupancy set.  Returns the updated ants (in processing
order), the final occupancy, the logged move tokens, and the number of
moves made this turn (Go's `moveMade` is `true` iff that number is
nonzero). -/
def processAnts (c : Colony) (turn : Int) :
    List Ant → List String → List Ant × List String × List String × Nat
  | [], occ => ([], occ, [], 0)
  | ant :: rest, occ =>
      if ant.position = (ant.path.length : Int) - 1 then
        let r := processAnts c turn rest occ
        (ant :: r.1, r.2.1, r.2.2.1, r.2.2.2)
      else if ant.position = -1 ∧ ant.delay > turn then
        let r := processAnts c turn rest occ
        (ant :: r.1, r.2.1, r.2.2.1, r.2.2.2)
      else
        let nextRoom := getNextRoom ant
        if canMoveToRoom nextRoom occ c = false then
          let r := processAnts c turn rest occ
          (ant :: r.1, r.2.1, r.2.2.1, r.2.2.2)
        else
          let turnMove :=
            if nextRoom ≠ c.start then ["L" ++ toString ant.id ++ "-" ++ nextRoom] else []
          let r := processAnts c turn rest (nextRoom :: occ)
          (updateAntPosition ant :: r.1, r.2.1, turnMove ++ r.2.2.1, r.2.2.2 + 1)

/-- One iteration of the turn loop: sort by priority, then process. -/
def simTurn (c : Colony) (ants : List Ant) (turn : Int) :
    List Ant × List String × Nat :=
  let sorted := sortAntsByPriority ants c.endRoom turn
  let r := processAnts c turn sorted []
  (r.1, r.2.2.1, r.2.2.2)

/-- The turn loop of `simulator.simulateAntMovements`.  Returns the move
log, the trace of post-turn ant lists (the slice order Go keeps between
turns), the per-turn move counts, and a flag that is true iff the Go
loop terminated within the given fuel. -/
def simRun (c : Colony) : Nat → List Ant → Int → List String × List (List Ant) × List Nat × Bool
  | 0, _, _ => ([], [], [], false)
  | fuel + 1, ants, turn =>
      let t := simTurn c ants turn
      if t.2.2 = 0 then ([], [], [], true)
      else
        let r := simRun c fuel t.1 (turn + 1)
        let thisMove := if t.2.1.length > 0 then [joinSpace t.2.1] else []
        (thisMove ++ r.1, t.1 :: r.2.1, t.2.2 :: r.2.2.1, r.2.2.2)

/-- `simulator.simulateAntMovements`: the move log it returns. -/
def simulateAntMovements (c : Colony) (ants : List Ant) (fuel : Nat) : List String :=
  (simRun c fuel ants 0).1

/-- `simulator.SimulateMovement` (minus the console echo of the input):
find paths, build path states, distribute ants, simulate. -/
def SimulateMovement (c : Colony) (dfsFuel simFuel : Nat) : List String :=
  let paths := FindPaths c dfsFuel
  if paths.isEmpty then ["ERROR: invalid data format"]
  else
    let pathStates := initializePathStates paths c
    let ants := (distributeAnts c.numAnts pathStates).1
    simulateAntMovements c ants simFuel

/-! ## Go string helpers (kernel-reducible, over `List Char`) -/

/-- `strings.Fields`: split on whitespace runs, dropping empty fields. -/
def fieldsAux : List Char → List Char → List String
  | [], acc => if acc.isEmpty then [] else [String.mk acc.reverse]
  | ch :: rest, acc =>
      if ch.isWhitespace then
        if acc.isEmpty then fieldsAux rest []
        else String.mk acc.reverse :: fieldsAux rest []
      else fieldsAux rest (ch :: acc)

/-- `strings.Fields`. -/
def goFields (s : String) : List String := fieldsAux s.toList []

/-- `strings.Split` on a one-character separator. -/
def splitAux (sep : Char) : List Char → List Char → List String
  | [], acc => [String.mk acc.reverse]
  | ch :: rest, acc =>
      if ch = sep then String.mk acc.reverse :: splitAux sep rest []
      else splitAux sep rest (ch :: acc)

/-- `strings.Split(s, sep)` for a one-character separator. -/
def goSplit (s : String) (sep : Char) : List String := splitAux sep s.toList []

/-- `strings.HasPrefix`. -/
def strStartsWith (s p : String) : Bool := p.toList.isPrefixOf s.toList

/-- `strings.Contains(line, "-")`. -/
def goContainsDash (s : String) : Bool := s.toList.contains '-'

/-- Digit-string value for `strconv.Atoi` (overflow is irrelevant at the
magnitudes appearing here). -/
def digitsValAux : List Char → Nat → Option Nat
  | [], acc => some acc
  | c :: rest, acc =>
      if c.isDigit then digitsValAux rest (acc * 10 + (c.toNat - 48)) else none

/-- Value of a nonempty all-digit string. -/
def digitsVal (cs : List Char) : Option Nat :=
  if cs.isEmpty then none else digitsValAux cs 0

/-- `strconv.Atoi`. -/
def goAtoi (s : String) : Option Int :=
  match s.toList with
  | '+' :: rest => (digitsVal rest).map Int.ofNat
  | '-' :: rest => (digitsVal rest).map (fun n => -(n : Int))
  | cs => (digitsVal cs).map Int.ofNat

/-! ## Parser — `pkg/parser` (first unnamed source file)

Go reports every failure as the single error value
`"ERROR: invalid data format"`; we model the error case as `none`. -/

/-- `parser.parseAnts`: first line must be a positive integer. -/
def parseAnts (lines : List String) (c : Colony) : Option (Colony × List String) :=
  match lines with
  | [] => none
  | first :: rest =>
      match goAtoi first with
      | none => none
      | some antCount =>
          if antCount ≤ 0 then none
          else some ({ c with numAnts := antCount, input := c.input ++ [first] }, rest)

/-- `parser.parseRoom`. -/
def parseRoom (line : String) (isStart isEnd : Bool) (c : Colony) : Option Colony :=
  let parts := goFields line
  if parts.length ≠ 3 then none
  else
    let name := parts.getD 0 ""
    if strStartsWith name "L" || strStartsWith name "#" then none
    else
      match goAtoi (parts.getD 1 ""), goAtoi (parts.getD 2 "") with
      | some x, some y =>
          let room : Room :=
            { name := name, x := x, y := y, isStart := isStart, isEnd := isEnd }
          let c := if isStart then { c with start := name } else c
          let c := if isEnd then { c with endRoom := name } else c
          some { c with rooms := roomsInsert c.rooms name room }
      | _, _ => none

/-- `parser.parseTunnel`. -/
def parseTunnel (line : String) (c : Colony) : Option Colony :=
  let parts := goSplit line '-'
  if parts.length ≠ 2 then none
  else if roomsMem c.rooms (parts.getD 0 "") = false then none
  else if roomsMem c.rooms (parts.getD 1 "") = false then none
  else some { c with tunnels := c.tunnels ++ [⟨parts.getD 0 "", parts.getD 1 ""⟩] }

/-- `parser.parseRoomsAndTunnels`: the line loop with the
`expectingStart` / `expectingEnd` flags. -/
def parseRoomsAndTunnels : List String → Colony → Bool → Bool → Option Colony
  | [], c, _, _ => some c
  | line :: rest, c, expectingStart, expectingEnd =>
      let c := { c with input := c.input ++ [line] }
      if line = "" then parseRoomsAndTunnels rest c expectingStart expectingEnd
      else if line = "##start" then parseRoomsAndTunnels rest c true expectingEnd
      else if line = "##end" then parseRoomsAndTunnels rest c expectingStart true
      else if strStartsWith line "#" then parseRoomsAndTunnels rest c expectingStart expectingEnd
      else if goContainsDash line then
        match parseTunnel line c with
        | none => none
        | some c2 => parseRoomsAndTunnels rest c2 expectingStart expectingEnd
      else
        match parseRoom line expectingStart expectingEnd c with
        | none => none
        | some c2 =>
            if expectingStart then parseRoomsAndTunnels rest c2 false expectingEnd
            else if expectingEnd then parseRoomsAndTunnels rest c2 expectingStart false
            else parseRoomsAndTunnels rest c2 expectingStart expectingEnd

/-- `parser.ParseInput` on the list of input lines. -/
def ParseInput (lines : List String) : Option Colony :=
  match parseAnts lines NewColony with
  | none => none
  | some (c, rest) =>
      match parseRoomsAndTunnels rest c false false with
      | none => none
      | some c2 => if c2.start = "" ∨ c2.endRoom = "" then none else some c2

/-! ## Scored pathfinder — second unnamed source file (package `pathfinder`
with `optimizePaths`): the pieces the claims are about. -/

/-- Interior overlap count between two paths; the shared-room counting
loop in `calculateIndependenceScore` (and `countSharedRooms`). -/
def overlapCount (path other : Path) : Int :=
  let shared := (path.drop 1).dropLast
  (((other.drop 1).dropLast).filter (fun room => shared.contains room)).length

/-- `pathfinder.calculateIndependenceScore` of the scored variant. -/
def calculateIndependenceScore (path : Path) (otherPaths : List Path) : Rat :=
  if otherPaths.length = 0 then 100
  else
    let totalOverlap : Int :=
      (otherPaths.map fun other =>
        if other.getD 0 "" = path.getD 0 "" ∧ other.getLastD "" = path.getLastD ""
        then 0 else overlapCount path other).sum
    qdiv 100 (qadd 1 (intToQ totalOverlap))

/-- The comparison key of `sortRoomsByPotential`: Manhattan distance to
the end room over one plus the room's degree. -/
def roomPotential (c : Colony) (endName room : String) : Rat :=
  let endR := roomsFind c.rooms endName
  let r := roomsFind c.rooms room
  let dist : Int := ((r.x - endR.x).natAbs : Int) + ((r.y - endR.y).natAbs : Int)
  qdiv (intToQ dist) (qadd 1 (intToQ (countConnections c.tunnels room : Int)))

/-- `pathfinder.sortRoomsByPotential` (stable model of `sort.Slice`). -/
def sortRoomsByPotential (c : Colony) (rooms : List String) : List String :=
  List.insertionSort
    (fun a b => roomPotential c c.endRoom a ≤ roomPotential c c.endRoom b) rooms

/-- The `dfs` of the scored pathfinder: identical to the plain one except
that the next rooms are ranked by `sortRoomsByPotential` first. -/
def dfsAdv (c : Colony) (fuel : Nat) : List Path :=
  dfsGen c.endRoom
    (fun cur vis => sortRoomsByPotential c (getNextRooms c.tunnels cur vis))
    fuel c.start [] [c.start]

/-! ## Concrete runs used by the counterexample theorems -/

/-- An input file: five ants, two length-4 paths `s-a-c-e` and `s-b-c-e`
sharing the interior room `c`. -/
def linesTwin : List String :=
  ["5", "##start", "s 0 0", "a 1 1", "b 1 2", "c 2 0", "##end", "e 3 0",
   "s-a", "a-c", "s-b", "b-c", "c-e"]

/-- The colony `ParseInput` produces from `linesTwin` (proved below). -/
def cTwin : Colony :=
  { numAnts := 5,
    rooms :=
      [("s", { name := "s", x := 0, y := 0, isStart := true, isEnd := false }),
       ("a", { name := "a", x := 1, y := 1, isStart := false, isEnd := false }),
       ("b", { name := "b", x := 1, y := 2, isStart := false, isEnd := false }),
       ("c", { name := "c", x := 2, y := 0, isStart := false, isEnd := false }),
       ("e", { name := "e", x := 3, y := 0, isStart := false, isEnd := true })],
    tunnels := [⟨"s", "a"⟩, ⟨"a", "c"⟩, ⟨"s", "b"⟩, ⟨"b", "c"⟩, ⟨"c", "e"⟩],
    start := "s", endRoom := "e", input := linesTwin }

/-- The ants the distributor assigns for `cTwin`. -/
def antsTwin : List Ant :=
  (distributeAnts cTwin.numAnts (initializePathStates (FindPaths cTwin 12) cTwin)).1

/-- The distribution rounds for `cTwin`. -/
def roundsTwin : List Round :=
  (distributeAnts cTwin.numAnts (initializePathStates (FindPaths cTwin 12) cTwin)).2.2.1

/-- The per-turn ant-state trace of the simulation on `cTwin`. -/
def traceTwin : List (List Ant) := (simRun cTwin 30 antsTwin 0).2.1

/-- Zero `Ant` used for (never occurring) out-of-range lookups. -/
def defaultAnt : Ant := { id := 0, path := [], position := 0, pathIndex := 0, delay := 0 }

/-- Zero `Round` used for (never occurring) out-of-range lookups. -/
def defaultRound : Round :=
  { bestPath := 0, bestTime := 0, stateAtChoice := defaultPathState,
    remainingBefore := 0, antsForPath := 0 }

/-- The batch-size formula as the specification words it: *floor* of
estimated time over (edge count · efficiency), capped at the remaining
agents. -/
def specBatchFloor (state : PathState) (remaining : Int) (t : Rat) : Int :=
  min (qfloor (qdiv t (qmul (intToQ ((state.path.length : Int) - 1)) state.efficiency)))
    remaining

/-- The batch-size formula the code actually computes: *ceiling* instead
of floor (used to state the amended claim C7). -/
def specBatchCeil (state : PathState) (remaining : Int) (t : Rat) : Int :=
  min (qceil (qdiv t (qmul (intToQ ((state.path.length : Int) - 1)) state.efficiency)))
    remaining

/-! ## C1 — single occupancy of interior rooms -/

/-- **C1** (code bug).  The per-turn occupancy map only records rooms
*entered* during the current turn, never the rooms still held by ants
that failed to move; so a blocked ant's room can be entered by the ant
behind it.  On the input `linesTwin` (parsed to `cTwin`), the simulation
terminates, yet at the end of the third turn (trace index 2) two ants
occupy the interior room `b` — contradicting the claimed bound of one
ant per interior room. -/
theorem C1_interior_double_occupancy :
    ParseInput linesTwin = some cTwin ∧
    (simRun cTwin 30 antsTwin 0).2.2.2 = true ∧
    "b" ≠ cTwin.start ∧ "b" ≠ cTwin.endRoom ∧
    ((traceTwin.getD 2 []).filter
      (fun a => 0 ≤ a.position ∧ a.path.getD a.position.toNat "" = "b")).length = 2 := by
  decide

/-! ## C6 — duplicate edges and the dfs output -/

/-- A two-room colony joined by one tunnel. -/
def cSingleEdge : Colony :=
  { numAnts := 1,
    rooms := [("s", { name := "s", x := 0, y := 0, isStart := true, isEnd := false }),
              ("e", { name := "e", x := 1, y := 0, isStart := false, isEnd := true })],
    tunnels := [⟨"s", "e"⟩], start := "s", endRoom := "e", input := [] }

/-- The same colony with the tunnel duplicated. -/
def cDoubleEdge : Colony := { cSingleEdge with tunnels := cSingleEdge.tunnels ++ [⟨"s", "e"⟩] }

/-- **C6 counterexample.**  Duplicating an existing edge changes the
list of paths the dfs produces: every path through the edge is emitted
once per copy. -/
theorem C6_duplicate_edge_changes_list_cex :
    (⟨"s", "e"⟩ : Tunnel) ∈ cSingleEdge.tunnels ∧
    dfsAdv cSingleEdge 10 = [["s", "e"]] ∧
    dfsAdv cDoubleEdge 10 = [["s", "e"], ["s", "e"]] := by
  decide

/-! ## C7 — batch size uses ceiling, not floor -/

/-- **C7 counterexample.**  In the first distribution round on `cTwin`
the code assigns `min(⌈2.5⌉, 5) = 3` ants, while the specified formula
`floor(estimated time / (edges · efficiency))` gives 2. -/
theorem C7_batch_not_floor_cex :
    (roundsTwin.getD 0 defaultRound).antsForPath = 3 ∧
    specBatchFloor (roundsTwin.getD 0 defaultRound).stateAtChoice
      (roundsTwin.getD 0 defaultRound).remainingBefore
      (roundsTwin.getD 0 defaultRound).bestTime = 2 ∧
    (3 : Int) ≠ 2 := by
  decide

/-! ## C8 — no identity tie-break in the priority sort -/

/-- The processing order of the fourth simulation turn (turn counter 3)
on `cTwin`: the sort of the post-turn-2 ant slice. -/
def sortedTurn3 : List Ant := sortAntsByPriority (traceTwin.getD 2 []) cTwin.endRoom 3

/-- **C8 counterexample.**  At turn 3 of the `cTwin` run, ants 4 and 2
have equal priority but ant 4 (the larger identity) is processed first:
the comparator uses only the priority, and Go's `sort.Slice` (insertion
sort at this size) keeps the previous turn's order on ties, which is not
ordered by identity. -/
theorem C8_no_id_tiebreak_cex :
    sortedTurn3.map (fun a => a.id) = [1, 4, 2, 5, 3] ∧
    getAntPriority (sortedTurn3.getD 1 defaultAnt) 3
      = getAntPriority (sortedTurn3.getD 2 defaultAnt) 3 ∧
    (sortedTurn3.getD 2 defaultAnt).id < (sortedTurn3.getD 1 defaultAnt).id := by
  decide

/-! ## C9 — duplicate start/end markers are accepted, last one wins -/

/-- An input with two `##start` markers. -/
def linesDupStart : List String :=
  ["3", "##start", "s1 0 0", "##start", "s2 5 5", "##end", "e 9 9", "s2-e"]

/-- **C9 counterexample.**  An input with a duplicate start marker is
parsed successfully (no format error); the colony's start is the room
following the *last* marker. -/
theorem C9_duplicate_start_accepted_cex :
    linesDupStart.count "##start" = 2 ∧
    (ParseInput linesDupStart).isSome = true ∧
    (ParseInput linesDupStart).map (fun c => c.start) = some "s2" := by
  decide

/-- **C9 (amended).**  `parseRoom` never checks whether a start (or end)
was already recorded: with the start flag armed it unconditionally
overwrites the colony's start identifier (symmetrically for end), so a
duplicate marker silently makes the last marked room win. -/
theorem C9_parseRoom_overwrites (c : Colony) (line name xs ys : String) (x y : Int)
    (s e : Bool)
    (hf : goFields line = [name, xs, ys])
    (hL : strStartsWith name "L" = false)
    (hH : strStartsWith name "#" = false)
    (hx : goAtoi xs = some x) (hy : goAtoi ys = some y) :
    parseRoom line s e c =
      some { c with
              start := if s then name else c.start,
              endRoom := if e then name else c.endRoom,
              rooms := roomsInsert c.rooms name
                { name := name, x := x, y := y, isStart := s, isEnd := e } } := by
  unfold parseRoom
  rw [hf]
  simp only [List.getD, List.get?_cons_zero, List.get?_cons_succ, Option.getD_some,
    List.length_cons, List.length_nil]
  rw [if_neg (by norm_num), hL, hH, hx, hy]
  rw [if_neg (by simp)]
  cases s <;> cases e <;> rfl

/-- Witness for `C9_parseRoom_overwrites` at a concrete room line, on a
colony whose start is already set (the duplicate-marker situation). -/
theorem C9_parseRoom_overwrites_witness :
    goFields "s2 5 5" = ["s2", "5", "5"] ∧
    parseRoom "s2 5 5" true false { NewColony with start := "s1" } =
      some { { NewColony with start := "s1" } with
              start := if true then "s2" else "s1",
              endRoom := if false then "s2" else "",
              rooms := roomsInsert [] "s2"
                { name := "s2", x := 5, y := 5, isStart := true, isEnd := false } } :=
  ⟨by decide,
   C9_parseRoom_overwrites { NewColony with start := "s1" } "s2 5 5" "s2" "5" "5" 5 5
     true false (by decide) (by decide) (by decide) (by decide) (by decide)⟩

/-! ## C5 — the independence score degenerates to 100 -/

/-- **C5** (code bug).  The guard intended to skip comparing a path with
itself (`other[0] == path[0] && other[last] == path[last]`, comment "Skip
comparing with itself") skips every path that shares both endpoints with
the scored path.  All paths the enumerator discovers share the start and
end rooms, so on every discovered-path set the total overlap is 0 and
the independence score is exactly 100 — never the specified
`100 / (1 + shared interior rooms)`. -/
theorem C5_independence_always_100 (path : Path) (otherPaths : List Path)
    (h : ∀ o ∈ otherPaths,
        o.getD 0 "" = path.getD 0 "" ∧ o.getLastD "" = path.getLastD "") :
    calculateIndependenceScore path otherPaths = 100 := by
  unfold calculateIndependenceScore
  by_cases he : otherPaths.length = 0
  · rw [if_pos he]
  · rw [if_neg he]
    have hz : (otherPaths.map fun other =>
        if other.getD 0 "" = path.getD 0 "" ∧ other.getLastD "" = path.getLastD ""
        then 0 else overlapCount path other).sum = (0 : Int) := by
      apply List.sum_eq_zero
      intro x hx
      rw [List.mem_map] at hx
      obtain ⟨o, ho, rfl⟩ := hx
      rw [if_pos (h o ho)]
    rw [hz]
    show qdiv 100 (qadd 1 (intToQ 0)) = 100
    rw [show intToQ 0 = (0 : ℚ) from intToQ_eq 0, qadd_eq, qdiv_eq]
    norm_num

/-- Witness for `C5_independence_always_100`: a path sharing the interior
room `a` with another candidate still scores 100 (the specification's
formula would give 50). -/
theorem C5_independence_always_100_witness :
    (∀ o ∈ [["start", "a", "b", "end"]],
        o.getD 0 "" = (["start", "a", "end"] : Path).getD 0 ""
          ∧ o.getLastD "" = (["start", "a", "end"] : Path).getLastD "") ∧
    calculateIndependenceScore ["start", "a", "end"] [["start", "a", "b", "end"]] = 100 :=
  ⟨by decide, C5_independence_always_100 ["start", "a", "end"] [["start", "a", "b", "end"]]
    (by decide)⟩

/-! ## C2 — every enumerated path is a simple start→end path -/

theorem dfsGen_mem (endName : String) (nexts : String → List String → List String)
    (hn : ∀ cur vis n, n ∈ nexts cur vis → vis.contains n = false) :
    ∀ (fuel : Nat) (current : String) (visited : List String) (path p : Path),
      p ∈ dfsGen endName nexts fuel current visited path →
      path ≠ [] →
      path.getLast? = some current →
      (∀ x ∈ path.dropLast, visited.contains x = true) →
      path.Nodup →
      p.head? = path.head? ∧ p.getLast? = some endName ∧ p.Nodup := by
  intro fuel
  induction fuel with
  | zero =>
      intro current visited path p hp
      simp [dfsGen] at hp
  | succ n ih =>
      intro current visited path p hp hne hlast hvis hnd
      rw [dfsGen] at hp
      by_cases hcur : current = endName
      · rw [if_pos hcur] at hp
        rw [List.mem_singleton] at hp
        subst hp
        exact ⟨rfl, by rw [hlast, hcur], hnd⟩
      · rw [if_neg hcur] at hp
        rw [List.mem_flatten] at hp
        obtain ⟨l, hl, hpl⟩ := hp
        rw [List.mem_map] at hl
        obtain ⟨next, hnext, rfl⟩ := hl
        -- facts about the chosen neighbour
        have hnc : (current :: visited).contains next = false := hn _ _ _ hnext
        have hnmem : next ∉ current :: visited := by
          intro hmem
          have h2 : (current :: visited).contains next = true := List.elem_iff.mpr hmem
          rw [hnc] at h2
          exact Bool.false_ne_true h2
        -- decompose path as dropLast ++ [current]
        have hgl : path.getLast hne = current := by
          rw [List.getLast?_eq_getLast path hne] at hlast
          exact Option.some_injective _ hlast
        have hdecomp : path.dropLast ++ [current] = path := by
          rw [← hgl]
          exact List.dropLast_concat_getLast hne
        have hmem_path : ∀ x ∈ path, x = current ∨ x ∈ path.dropLast := by
          intro x hx
          rw [← hdecomp, List.mem_append, List.mem_singleton] at hx
          tauto
        -- invariants for the recursive call
        have h1 : path ++ [next] ≠ [] := by simp
        have h2 : (path ++ [next]).getLast? = some next := List.getLast?_concat path
        have h3 : ∀ x ∈ (path ++ [next]).dropLast, (current :: visited).contains x = true := by
          rw [List.dropLast_concat]
          intro x hx
          rcases hmem_path x hx with rfl | hx2
          · exact List.elem_iff.mpr (List.mem_cons_self _ _)
          · exact List.elem_iff.mpr
              (List.mem_cons_of_mem _ (List.elem_iff.mp (hvis x hx2)))
        have h4 : (path ++ [next]).Nodup := by
          rw [List.nodup_append]
          refine ⟨hnd, List.nodup_singleton next, ?_⟩
          intro x hx hx2
          rw [List.mem_singleton] at hx2
          subst hx2
          rcases hmem_path x hx with heq | hx3
          · exact hnmem (heq ▸ List.mem_cons_self _ _)
          · exact hnmem (List.mem_cons_of_mem _ (List.elem_iff.mp (hvis x hx3)))
        have hcall := ih next (current :: visited) (path ++ [next]) p hpl h1 h2 h3 h4
        refine ⟨?_, hcall.2.1, hcall.2.2⟩
        rw [hcall.1]
        exact List.head?_append_of_ne_nil path hne

/-- A value read in range from a list is a member. -/
theorem getD_mem {α : Type} (l : List α) (n : Nat) (d : α) (h : n < l.length) :
    l.getD n d ∈ l := by
  rw [List.getD_eq_getElem l d h]
  exact List.getElem_mem h

theorem lenSortInner_length : ∀ (fuel : Nat) (ps : List Path) (i j : Nat),
    (lenSortInner fuel ps i j).length = ps.length := by
  intro fuel
  induction fuel with
  | zero => intro ps i j; rfl
  | succ n ih =>
      intro ps i j
      rw [lenSortInner]
      by_cases hj : j < ps.length
      · rw [if_pos hj, ih]
        split <;> simp [List.length_set]
      · rw [if_neg hj]

theorem lenSortInner_subset : ∀ (fuel : Nat) (ps : List Path) (i j : Nat) (p : Path),
    i < ps.length → p ∈ lenSortInner fuel ps i j → p ∈ ps := by
  intro fuel
  induction fuel with
  | zero => intro ps i j p _ hp; exact hp
  | succ n ih =>
      intro ps i j p hi hp
      rw [lenSortInner] at hp
      by_cases hj : j < ps.length
      · rw [if_pos hj] at hp
        dsimp only at hp
        by_cases hswap : (ps.getD i []).length > (ps.getD j []).length
        · rw [if_pos hswap] at hp
          have hlen : ((ps.set i (ps.getD j [])).set j (ps.getD i [])).length = ps.length := by
            simp [List.length_set]
          have hmem := ih _ i (j + 1) p (by rw [hlen]; exact hi) hp
          rcases List.mem_or_eq_of_mem_set hmem with hmem2 | rfl
          · rcases List.mem_or_eq_of_mem_set hmem2 with hmem3 | rfl
            · exact hmem3
            · exact getD_mem ps j [] hj
          · exact getD_mem ps i [] hi
        · rw [if_neg hswap] at hp
          exact ih _ i (j + 1) p hi hp
      · rw [if_neg hj] at hp
        exact hp

theorem lenSortOuter_subset : ∀ (fuel : Nat) (ps : List Path) (i : Nat) (p : Path),
    p ∈ lenSortOuter fuel ps i → p ∈ ps := by
  intro fuel
  induction fuel with
  | zero => intro ps i p hp; exact hp
  | succ n ih =>
      intro ps i p hp
      rw [lenSortOuter] at hp
      by_cases hi : i + 1 < ps.length
      · rw [if_pos hi] at hp
        exact lenSortInner_subset _ _ i (i + 1) p (by omega) (ih _ _ p hp)
      · rw [if_neg hi] at hp
        exact hp

theorem lenSort_subset (ps : List Path) (p : Path) (hp : p ∈ lenSort ps) : p ∈ ps :=
  lenSortOuter_subset ps.length ps 0 p hp

/-- The unvisited-neighbour filter really only returns unvisited rooms. -/
theorem getNextRooms_unvisited (tunnels : List Tunnel) :
    ∀ cur vis n, n ∈ getNextRooms tunnels cur vis → vis.contains n = false := by
  intro cur vis n hn
  unfold getNextRooms at hn
  rw [List.mem_filterMap] at hn
  obtain ⟨t, _, ht⟩ := hn
  by_cases hcond : tunnelNext t cur ≠ "" ∧ vis.contains (tunnelNext t cur) = false
  · rw [if_pos hcond] at ht
    cases ht
    exact hcond.2
  · rw [if_neg hcond] at ht
    cases ht

/-- Helper: membership in `dfsPaths` gives the three path properties. -/
theorem dfsPaths_wellformed (c : Colony) (fuel : Nat) (p : Path)
    (hp : p ∈ dfsPaths c fuel) :
    p.head? = some c.start ∧ p.getLast? = some c.endRoom ∧ p.Nodup := by
  have h := dfsGen_mem c.endRoom (fun cur vis => getNextRooms c.tunnels cur vis)
    (fun cur vis n hn => getNextRooms_unvisited c.tunnels cur vis n hn)
    fuel c.start [] [c.start] p hp (by simp) rfl (by simp) (List.nodup_singleton _)
  exact ⟨h.1, h.2.1, h.2.2⟩

/-- Helper form of C2, shared by the later liveness developments. -/
theorem FindPaths_wellformed (c : Colony) (fuel : Nat) (p : Path)
    (hp : p ∈ FindPaths c fuel) :
    p.head? = some c.start ∧ p.getLast? = some c.endRoom ∧ p.Nodup :=
  dfsPaths_wellformed c fuel p (lenSort_subset _ p hp)

/-- **C2.**  Every path returned by `FindPaths` starts at the start room,
ends at the end room, and repeats no room. -/
theorem C2_enumerated_paths_simple (c : Colony) (fuel : Nat) (p : Path)
    (hp : p ∈ FindPaths c fuel) :
    p.head? = some c.start ∧ p.getLast? = some c.endRoom ∧ p.Nodup :=
  FindPaths_wellformed c fuel p hp

/-- Witness for `C2_enumerated_paths_simple` on the concrete colony
`cTwin`. -/
theorem C2_enumerated_paths_simple_witness :
    ["s", "a", "c", "e"] ∈ FindPaths cTwin 12 ∧
    (["s", "a", "c", "e"] : Path).head? = some cTwin.start ∧
    (["s", "a", "c", "e"] : Path).getLast? = some cTwin.endRoom ∧
    (["s", "a", "c", "e"] : Path).Nodup :=
  ⟨by decide, C2_enumerated_paths_simple cTwin 12 ["s", "a", "c", "e"] (by decide)⟩

/-! ## C6 (amended) — the *set* of dfs paths ignores edge multiplicity -/

/-- The dfs output set only depends on the neighbour lists up to
membership. -/
theorem dfsGen_mem_iff (endName : String)
    (nexts1 nexts2 : String → List String → List String)
    (h : ∀ cur vis n, n ∈ nexts1 cur vis ↔ n ∈ nexts2 cur vis) :
    ∀ (fuel : Nat) (cur : String) (vis : List String) (path p : Path),
      p ∈ dfsGen endName nexts1 fuel cur vis path ↔
        p ∈ dfsGen endName nexts2 fuel cur vis path := by
  intro fuel
  induction fuel with
  | zero => intro cur vis path p; rfl
  | succ n ih =>
      intro cur vis path p
      rw [dfsGen, dfsGen]
      by_cases hcur : cur = endName
      · rw [if_pos hcur, if_pos hcur]
      · rw [if_neg hcur, if_neg hcur]
        simp only [List.mem_flatten, List.mem_map]
        constructor
        · rintro ⟨l, ⟨m, hm, rfl⟩, hpl⟩
          exact ⟨_, ⟨m, (h _ _ m).mp hm, rfl⟩, (ih m _ _ p).mp hpl⟩
        · rintro ⟨l, ⟨m, hm, rfl⟩, hpl⟩
          exact ⟨_, ⟨m, (h _ _ m).mpr hm, rfl⟩, (ih m _ _ p).mpr hpl⟩

/-- Appending a tunnel that is already in the list does not change which
rooms the neighbour filter returns. -/
theorem getNextRooms_append_dup (tunnels : List Tunnel) (t : Tunnel) (ht : t ∈ tunnels)
    (cur : String) (vis : List String) (n : String) :
    n ∈ getNextRooms (tunnels ++ [t]) cur vis ↔ n ∈ getNextRooms tunnels cur vis := by
  unfold getNextRooms
  rw [List.filterMap_append]
  rw [List.mem_append]
  constructor
  · rintro (hl | hr)
    · exact hl
    · rw [List.mem_filterMap] at hr ⊢
      obtain ⟨u, hu, hun⟩ := hr
      rw [List.mem_singleton] at hu
      exact ⟨u, by rw [hu]; exact ht, hun⟩
  · intro hl
    exact Or.inl hl

/-- **C6 (amended).**  Adding a duplicate of an existing tunnel leaves
the *set* of dfs-enumerated paths unchanged (the list changes: paths
through the duplicated edge are emitted once per copy). -/
theorem C6_duplicate_edge_same_path_set (c : Colony) (t : Tunnel) (ht : t ∈ c.tunnels)
    (fuel : Nat) (p : Path) :
    p ∈ dfsAdv { c with tunnels := c.tunnels ++ [t] } fuel ↔ p ∈ dfsAdv c fuel := by
  unfold dfsAdv
  apply dfsGen_mem_iff
  intro cur vis n
  have hperm1 := List.perm_insertionSort
    (fun a b => roomPotential { c with tunnels := c.tunnels ++ [t] }
        { c with tunnels := c.tunnels ++ [t] }.endRoom a
      ≤ roomPotential { c with tunnels := c.tunnels ++ [t] }
        { c with tunnels := c.tunnels ++ [t] }.endRoom b)
    (getNextRooms (c.tunnels ++ [t]) cur vis)
  have hperm2 := List.perm_insertionSort
    (fun a b => roomPotential c c.endRoom a ≤ roomPotential c c.endRoom b)
    (getNextRooms c.tunnels cur vis)
  unfold sortRoomsByPotential
  rw [hperm1.mem_iff, hperm2.mem_iff]
  exact getNextRooms_append_dup c.tunnels t ht cur vis n

/-- Witness for `C6_duplicate_edge_same_path_set` on the concrete
single-edge colony. -/
theorem C6_duplicate_edge_same_path_set_witness :
    (⟨"s", "e"⟩ : Tunnel) ∈ cSingleEdge.tunnels ∧
    (["s", "e"] ∈ dfsAdv { cSingleEdge with tunnels := cSingleEdge.tunnels ++ [⟨"s", "e"⟩] } 10
      ↔ ["s", "e"] ∈ dfsAdv cSingleEdge 10) :=
  ⟨by decide,
   C6_duplicate_edge_same_path_set cSingleEdge ⟨"s", "e"⟩ (by decide) 10 ["s", "e"]⟩

/-! ## C8 (amended) — the sort orders by priority only -/

/-- **C8 (amended).**  `sortAntsByPriority` produces a permutation of the
ant slice that is sorted by priority in descending order; it applies no
identity tie-break (equal-priority ants keep the previous slice order,
see `C8_no_id_tiebreak_cex`). -/
theorem C8_sort_is_priority_descending (ants : List Ant) (endName : String) (turn : Int) :
    (sortAntsByPriority ants endName turn).Perm ants ∧
    (sortAntsByPriority ants endName turn).Sorted
      (fun a b => getAntPriority a turn ≥ getAntPriority b turn) := by
  haveI : IsTotal Ant (fun a b => getAntPriority a turn ≥ getAntPriority b turn) :=
    ⟨fun a b => le_total (getAntPriority b turn) (getAntPriority a turn)⟩
  haveI : IsTrans Ant (fun a b => getAntPriority a turn ≥ getAntPriority b turn) :=
    ⟨fun _ _ _ hab hbc => le_trans hbc hab⟩
  exact ⟨List.perm_insertionSort _ ants, List.sorted_insertionSort _ ants⟩

/-! ## C7 (amended) — each round's batch is the ceiling formula -/

/-- **C7 (amended).**  In every distribution round, the batch assigned to
the chosen path is `min(⌈estimate / (edge count · efficiency)⌉, remaining)`
— the code uses the ceiling, not the floor the specification states. -/
theorem C7_round_batch_is_ceil (fuel : Nat) (states : List PathState) (rem idx : Int)
    (r : Round) (hr : r ∈ (distGo fuel states rem idx).2.2.1) :
    r.antsForPath = specBatchCeil r.stateAtChoice r.remainingBefore r.bestTime := by
  induction fuel generalizing states rem idx with
  | zero => simp [distGo] at hr
  | succ n ih =>
      rw [distGo] at hr
      by_cases hrem : rem > 0
      · rw [if_pos hrem] at hr
        rcases hfb : findBestPath states rem with ⟨bp, bt⟩
        rw [hfb] at hr
        cases bt with
        | none => simp at hr
        | some t =>
            dsimp only at hr
            rcases List.mem_cons.mp hr with rfl | hr2
            · rfl
            · exact ih _ _ _ hr2
      · rw [if_neg hrem] at hr
        simp at hr

/-- Witness for `C7_round_batch_is_ceil` at the first round on `cTwin`. -/
theorem C7_round_batch_is_ceil_witness :
    (roundsTwin.getD 0 defaultRound)
        ∈ (distGo (cTwin.numAnts.toNat + 1)
            (initializePathStates (FindPaths cTwin 12) cTwin) cTwin.numAnts 0).2.2.1 ∧
    (roundsTwin.getD 0 defaultRound).antsForPath
      = specBatchCeil (roundsTwin.getD 0 defaultRound).stateAtChoice
          (roundsTwin.getD 0 defaultRound).remainingBefore
          (roundsTwin.getD 0 defaultRound).bestTime :=
  ⟨by decide,
   C7_round_batch_is_ceil (cTwin.numAnts.toNat + 1)
     (initializePathStates (FindPaths cTwin 12) cTwin) cTwin.numAnts 0
     (roundsTwin.getD 0 defaultRound) (by decide)⟩

/-! ## Distributor arithmetic — the quantities the rounds compute -/

theorem calculatePathEfficiency_bounds (path : Path) (c : Colony) :
    0 < calculatePathEfficiency path c ∧ calculatePathEfficiency path c ≤ 1 := by
  unfold calculatePathEfficiency
  by_cases hle : path.length ≤ 2
  · rw [if_pos hle]
    norm_num
  · rw [if_neg hle]
    push_neg at hle
    dsimp only
    set S : Int := (((path.drop 1).dropLast).map
      (fun room => (countConnections c.tunnels room : Int))).sum with hSdef
    have hSnn : (0 : Int) ≤ S := by
      rw [hSdef]
      apply List.sum_nonneg
      intro x hx
      rw [List.mem_map] at hx
      obtain ⟨room, _, rfl⟩ := hx
      exact Int.natCast_nonneg _
    simp only [qadd_eq, qmul_eq, qdiv_eq, qmin_eq, intToQ_eq, Rat.mkRat_eq_div]
    push_cast
    have hL : (3 : ℚ) ≤ (path.length : ℚ) := by exact_mod_cast hle
    have hLpos : (0 : ℚ) < (path.length : ℚ) := by linarith
    have hL2 : (0 : ℚ) < (path.length : ℚ) - 2 := by linarith
    have hCS : (0 : ℚ) ≤ (S : ℚ) := by exact_mod_cast hSnn
    have hmin0 : (0 : ℚ) ≤ min ((S : ℚ) / ((path.length : ℚ) - 2) / 4) 1 := by
      apply le_min
      · positivity
      · norm_num
    have hmin1 : min ((S : ℚ) / ((path.length : ℚ) - 2) / 4) 1 ≤ 1 := min_le_right _ _
    have hlf : 1 / (path.length : ℚ) ≤ 1 / 3 :=
      one_div_le_one_div_of_le (by norm_num) hL
    have hlfpos : 0 < 1 / (path.length : ℚ) := by positivity
    constructor
    · linarith
    · linarith

theorem calculateTimeEstimate_pos (state : PathState) (rem : Int)
    (hlen : 2 ≤ state.path.length) (hcnt : 0 ≤ state.antsCount)
    (heff2 : state.efficiency ≤ 1) (hrem : 0 ≤ rem) :
    0 < calculateTimeEstimate state rem := by
  unfold calculateTimeEstimate
  dsimp only
  simp only [qadd_eq, qmul_eq, qdiv_eq, qmax_eq, qsub_eq, intToQ_eq, Rat.mkRat_eq_div]
  push_cast
  have hL : (1 : ℚ) ≤ (state.path.length : ℚ) - 1 := by
    have : (2 : ℚ) ≤ (state.path.length : ℚ) := by exact_mod_cast hlen
    linarith
  have hload : (0 : ℚ) ≤ (state.antsCount : ℚ) := by exact_mod_cast hcnt
  have hremq : (0 : ℚ) ≤ (rem : ℚ) := by exact_mod_cast hrem
  have hI : (0 : ℚ) ≤ (state.antsCount : ℚ) * (4 / 5) * (1 - state.efficiency) := by
    apply mul_nonneg (by positivity)
    linarith
  have hcapm : max 0 (1 - (state.antsCount : ℚ) / ((state.path.length : ℚ) - 1)) ≤ 1 := by
    apply max_le (by norm_num)
    have : (0 : ℚ) ≤ (state.antsCount : ℚ) / ((state.path.length : ℚ) - 1) := by
      positivity
    linarith
  have hcap0 : (0 : ℚ) ≤ max 0 (1 - (state.antsCount : ℚ) / ((state.path.length : ℚ) - 1)) :=
    le_max_left _ _
  have h3 : (0 : ℚ) ≤
      (1 - max 0 (1 - (state.antsCount : ℚ) / ((state.path.length : ℚ) - 1))) * (rem : ℚ)
        * (1 / 2) := by
    apply mul_nonneg (mul_nonneg (by linarith) hremq)
    norm_num
  linarith

theorem calculateOptimalAntsForPath_ge_one (state : PathState) (rem : Int) (t : Rat)
    (hlen : 2 ≤ state.path.length) (heff : 0 < state.efficiency) (ht : 0 < t)
    (hrem : 1 ≤ rem) :
    1 ≤ calculateOptimalAntsForPath state rem t := by
  unfold calculateOptimalAntsForPath
  dsimp only
  rw [le_min_iff]
  refine ⟨?_, hrem⟩
  rw [qceil_eq]
  have h1 : (0 : ℚ) < qdiv t (qmul (intToQ ((state.path.length : Int) - 1)) state.efficiency) := by
    rw [qdiv_eq, qmul_eq, intToQ_eq]
    apply div_pos ht
    apply mul_pos ?_ heff
    push_cast
    have : (2 : ℚ) ≤ (state.path.length : ℚ) := by exact_mod_cast hlen
    linarith
  have := Int.ceil_pos.mpr h1
  omega

theorem calculateAntDelay_bounds (state : PathState) (k : Int)
    (hk : 0 ≤ k) (hlen : 2 ≤ state.path.length) (heff2 : state.efficiency ≤ 1) :
    0 ≤ calculateAntDelay state k ∧
    calculateAntDelay state k ≤ (state.path.length : Int) - 2 := by
  have hl2 : (0 : Int) ≤ (state.path.length : Int) - 2 := by
    omega
  unfold calculateAntDelay
  by_cases hk0 : k = 0
  · rw [if_pos hk0]
    exact ⟨le_refl 0, hl2⟩
  · rw [if_neg hk0]
    dsimp only
    have hx : (0 : ℚ) ≤ qmul (qmul (intToQ k) (qsub 1 state.efficiency)) (mkRat 3 2) := by
      rw [qmul_eq, qmul_eq, qsub_eq, intToQ_eq, Rat.mkRat_eq_div]
      push_cast
      have hkq : (0 : ℚ) ≤ (k : ℚ) := by exact_mod_cast hk
      apply mul_nonneg (mul_nonneg hkq (by linarith))
      norm_num
    have hbase : 0 ≤ goInt (qmul (qmul (intToQ k) (qsub 1 state.efficiency)) (mkRat 3 2)) := by
      unfold goInt
      rw [if_pos hx, qfloor_eq]
      exact Int.floor_nonneg.mpr hx
    constructor
    · rw [le_min_iff]
      exact ⟨hbase, hl2⟩
    · exact min_le_right _ _

/-! ## The best-path scan always picks a real index of a real estimate -/

theorem findBestPathAux_some : ∀ (l : List PathState) (rem i best : Int) (bt : Option Rat),
    0 ≤ i →
    (∀ t, bt = some t → 0 ≤ best ∧ best < i) →
    (bt = none → l ≠ []) →
    ∃ b t, findBestPathAux l rem i best bt = (b, some t) ∧ 0 ≤ b ∧ b < i + l.length := by
  intro l
  induction l with
  | nil =>
      intro rem i best bt hi hb hn
      cases bt with
      | none => exact absurd rfl (hn rfl)
      | some t =>
          refine ⟨best, t, rfl, (hb t rfl).1, ?_⟩
          have := (hb t rfl).2
          simp only [List.length_nil]
          omega
  | cons s rest ih =>
      intro rem i best bt hi hb hn
      cases bt with
      | none =>
          have hstep : findBestPathAux (s :: rest) rem i best none
              = findBestPathAux rest rem (i + 1) i (some (calculateTimeEstimate s rem)) := rfl
          rw [hstep]
          obtain ⟨b, t, heq, hb0, hbl⟩ := ih rem (i + 1) i (some (calculateTimeEstimate s rem))
            (by omega) (fun t ht => ⟨hi, by omega⟩) (by intro h; cases h)
          refine ⟨b, t, heq, hb0, ?_⟩
          simp only [List.length_cons]
          push_cast
          omega
      | some bprev =>
          have hstep : findBestPathAux (s :: rest) rem i best (some bprev)
              = if calculateTimeEstimate s rem < bprev then
                  findBestPathAux rest rem (i + 1) i (some (calculateTimeEstimate s rem))
                else findBestPathAux rest rem (i + 1) best (some bprev) := rfl
          rw [hstep]
          by_cases hlt : calculateTimeEstimate s rem < bprev
          · rw [if_pos hlt]
            obtain ⟨b, t, heq, hb0, hbl⟩ := ih rem (i + 1) i (some (calculateTimeEstimate s rem))
              (by omega) (fun t ht => ⟨hi, by omega⟩) (by intro h; cases h)
            refine ⟨b, t, heq, hb0, ?_⟩
            simp only [List.length_cons]
            push_cast
            omega
          · rw [if_neg hlt]
            obtain ⟨b, t, heq, hb0, hbl⟩ := ih rem (i + 1) best (some bprev)
              (by omega) (fun t ht => ⟨(hb bprev rfl).1, by have := (hb bprev rfl).2; omega⟩)
              (by intro h; cases h)
            refine ⟨b, t, heq, hb0, ?_⟩
            simp only [List.length_cons]
            push_cast
            omega

theorem findBestPathAux_time : ∀ (l : List PathState) (rem i best : Int) (bt : Option Rat)
    (b : Int) (t : Rat),
    findBestPathAux l rem i best bt = (b, some t) →
    (∃ s ∈ l, t = calculateTimeEstimate s rem) ∨ bt = some t := by
  intro l
  induction l with
  | nil =>
      intro rem i best bt b t heq
      have hstep : findBestPathAux [] rem i best bt = (best, bt) := rfl
      rw [hstep] at heq
      cases heq
      exact Or.inr rfl
  | cons s rest ih =>
      intro rem i best bt b t heq
      cases bt with
      | none =>
          have hstep : findBestPathAux (s :: rest) rem i best none
              = findBestPathAux rest rem (i + 1) i (some (calculateTimeEstimate s rem)) := rfl
          rw [hstep] at heq
          rcases ih _ _ _ _ _ _ heq with ⟨s2, hs2, rfl⟩ | hsome
          · exact Or.inl ⟨s2, List.mem_cons_of_mem _ hs2, rfl⟩
          · rw [Option.some_inj] at hsome
            exact Or.inl ⟨s, List.mem_cons_self _ _, hsome.symm⟩
      | some bprev =>
          have hstep : findBestPathAux (s :: rest) rem i best (some bprev)
              = if calculateTimeEstimate s rem < bprev then
                  findBestPathAux rest rem (i + 1) i (some (calculateTimeEstimate s rem))
                else findBestPathAux rest rem (i + 1) best (some bprev) := rfl
          rw [hstep] at heq
          by_cases hlt : calculateTimeEstimate s rem < bprev
          · rw [if_pos hlt] at heq
            rcases ih _ _ _ _ _ _ heq with ⟨s2, hs2, rfl⟩ | hsome
            · exact Or.inl ⟨s2, List.mem_cons_of_mem _ hs2, rfl⟩
            · rw [Option.some_inj] at hsome
              exact Or.inl ⟨s, List.mem_cons_self _ _, hsome.symm⟩
          · rw [if_neg hlt] at heq
            rcases ih _ _ _ _ _ _ heq with ⟨s2, hs2, rfl⟩ | hsome
            · exact Or.inl ⟨s2, List.mem_cons_of_mem _ hs2, rfl⟩
            · exact Or.inr hsome

/-- `findBestPath` on a nonempty state list returns an in-range index and
the estimate of one of the states. -/
theorem findBestPath_spec (states : List PathState) (rem : Int) (hne : states ≠ []) :
    ∃ b t, findBestPath states rem = (b, some t) ∧ 0 ≤ b ∧ b.toNat < states.length ∧
      ∃ s ∈ states, t = calculateTimeEstimate s rem := by
  obtain ⟨b, t, heq, hb0, hbl⟩ := findBestPathAux_some states rem 0 (-1) none
    (le_refl 0) (fun t ht => by cases ht) (fun _ => hne)
  refine ⟨b, t, heq, hb0, by omega, ?_⟩
  rcases findBestPathAux_time states rem 0 (-1) none b t heq with ⟨s, hs, rfl⟩ | habs
  · exact ⟨s, hs, rfl⟩
  · cases habs

/-! ## `updatePathState` preserves the state invariants -/

/-- The invariant each path state keeps through the distribution rounds. -/
def StateInv (s : PathState) : Prop :=
  2 ≤ s.path.length ∧ 0 ≤ s.antsCount ∧ 0 < s.efficiency ∧ s.efficiency ≤ 1

theorem updatePathState_length : ∀ (states : List PathState) (i : Nat) (n : Int),
    (updatePathState states i n).length = states.length := by
  intro states
  induction states with
  | nil => intro i n; rfl
  | cons s rest ih =>
      intro i n
      cases i with
      | zero => rfl
      | succ i2 => simp [updatePathState, ih]

theorem updatePathState_inv : ∀ (states : List PathState) (i : Nat) (n : Int),
    0 ≤ n → (∀ s ∈ states, StateInv s) →
    ∀ s2 ∈ updatePathState states i n, StateInv s2 := by
  intro states
  induction states with
  | nil => intro i n hn h s2 hs2; cases hs2
  | cons s rest ih =>
      intro i n hn h s2 hs2
      cases i with
      | zero =>
          rcases List.mem_cons.mp hs2 with rfl | hs3
          · obtain ⟨h1, h2, h3, h4⟩ := h s (List.mem_cons_self _ _)
            exact ⟨h1, show (0 : Int) ≤ s.antsCount + n by omega, h3, h4⟩
          · exact h s2 (List.mem_cons_of_mem _ hs3)
      | succ i2 =>
          rcases List.mem_cons.mp hs2 with rfl | hs3
          · exact h s2 (List.mem_cons_self _ _)
          · exact ih i2 n hn (fun u hu => h u (List.mem_cons_of_mem _ hu)) s2 hs3

/-- Every path occurring in the updated states occurred before. -/
theorem updatePathState_paths : ∀ (states : List PathState) (i : Nat) (n : Int),
    ∀ s2 ∈ updatePathState states i n, ∃ s ∈ states, s2.path = s.path := by
  intro states
  induction states with
  | nil => intro i n s2 hs2; cases hs2
  | cons s rest ih =>
      intro i n s2 hs2
      cases i with
      | zero =>
          rcases List.mem_cons.mp hs2 with rfl | hs3
          · exact ⟨s, List.mem_cons_self _ _, rfl⟩
          · exact ⟨s2, List.mem_cons_of_mem _ hs3, rfl⟩
      | succ i2 =>
          rcases List.mem_cons.mp hs2 with rfl | hs3
          · exact ⟨s2, List.mem_cons_self _ _, rfl⟩
          · obtain ⟨s3, hs3b, hp⟩ := ih i2 n s2 hs3
            exact ⟨s3, List.mem_cons_of_mem _ hs3b, hp⟩

/-! ## Batch structure -/

theorem batchAnts_map_id (st : PathState) (bp n idx : Int) :
    (batchAnts st bp n idx).map (fun a => a.id)
      = (List.range n.toNat).map (fun k : Nat => idx + (k : Int) + 1) := by
  unfold batchAnts
  rw [List.map_map]
  rfl

theorem batchAnts_mem (st : PathState) (bp n idx : Int) :
    ∀ a ∈ batchAnts st bp n idx,
      a.position = -1 ∧ a.path = st.path ∧
      ∃ k : Int, 0 ≤ k ∧ a.delay = calculateAntDelay st k := by
  intro a ha
  unfold batchAnts at ha
  rw [List.mem_map] at ha
  obtain ⟨i, _, rfl⟩ := ha
  exact ⟨rfl, rfl, (i : Int), Int.natCast_nonneg i, rfl⟩

theorem batchAnts_head (st : PathState) (bp n idx : Int) (hn : 1 ≤ n) :
    ∃ b ∈ batchAnts st bp n idx, b.path = st.path ∧ b.delay = 0 := by
  refine ⟨{ id := idx + (0 : Int) + 1, path := st.path, pathIndex := bp,
            position := -1, delay := calculateAntDelay st (0 : Int) }, ?_, rfl, ?_⟩
  · unfold batchAnts
    rw [List.mem_map]
    exact ⟨0, by rw [List.mem_range]; omega, rfl⟩
  · simp [calculateAntDelay]

/-! ## The distributor master lemma -/

theorem distGo_spec : ∀ (fuel : Nat) (states : List PathState) (rem idx : Int),
    (∀ s ∈ states, StateInv s) →
    states ≠ [] →
    0 ≤ rem →
    rem.toNat < fuel →
    (distGo fuel states rem idx).2.2.2 = true ∧
    ((distGo fuel states rem idx).1.map (fun a => a.id))
      = (List.range rem.toNat).map (fun k : Nat => idx + (k : Int) + 1) ∧
    (∀ a ∈ (distGo fuel states rem idx).1,
        a.position = -1 ∧ 0 ≤ a.delay ∧ a.delay ≤ (a.path.length : Int) - 2 ∧
        2 ≤ a.path.length ∧ (∃ s ∈ states, a.path = s.path) ∧
        ∃ b ∈ (distGo fuel states rem idx).1, b.path = a.path ∧ b.delay = 0) := by
  intro fuel
  induction fuel with
  | zero =>
      intro states rem idx _ _ _ hfuel
      omega
  | succ n ih =>
      intro states rem idx hinv hne hrem hfuel
      by_cases hpos : rem > 0
      · obtain ⟨bp, t, hfb, hbp0, hbplen, s', hs', ht⟩ := findBestPath_spec states rem hne
        have hstmem : getStateD states bp.toNat ∈ states := getD_mem states bp.toNat _ hbplen
        have hstinv := hinv _ hstmem
        have hs'inv := hinv s' hs'
        have htpos : 0 < t := by
          rw [ht]
          exact calculateTimeEstimate_pos s' rem hs'inv.1 hs'inv.2.1 hs'inv.2.2.2 hrem
        have hn1 : 1 ≤ calculateOptimalAntsForPath (getStateD states bp.toNat) rem t :=
          calculateOptimalAntsForPath_ge_one _ rem t hstinv.1 hstinv.2.2.1 htpos (by omega)
        have hnle : calculateOptimalAntsForPath (getStateD states bp.toNat) rem t ≤ rem :=
          min_le_right _ _
        have hstep : distGo (n + 1) states rem idx
            = (batchAnts (getStateD states bp.toNat) bp
                 (calculateOptimalAntsForPath (getStateD states bp.toNat) rem t) idx
               ++ (distGo n
                    (updatePathState states bp.toNat
                      (calculateOptimalAntsForPath (getStateD states bp.toNat) rem t))
                    (rem - calculateOptimalAntsForPath (getStateD states bp.toNat) rem t)
                    (idx + calculateOptimalAntsForPath (getStateD states bp.toNat) rem t)).1,
               (distGo n
                  (updatePathState states bp.toNat
                    (calculateOptimalAntsForPath (getStateD states bp.toNat) rem t))
                  (rem - calculateOptimalAntsForPath (getStateD states bp.toNat) rem t)
                  (idx + calculateOptimalAntsForPath (getStateD states bp.toNat) rem t)).2.1,
               (⟨bp, t, getStateD states bp.toNat, rem,
                  calculateOptimalAntsForPath (getStateD states bp.toNat) rem t⟩ : Round)
                 :: (distGo n
                      (updatePathState states bp.toNat
                        (calculateOptimalAntsForPath (getStateD states bp.toNat) rem t))
                      (rem - calculateOptimalAntsForPath (getStateD states bp.toNat) rem t)
                      (idx + calculateOptimalAntsForPath (getStateD states bp.toNat) rem t)).2.2.1,
               (distGo n
                  (updatePathState states bp.toNat
                    (calculateOptimalAntsForPath (getStateD states bp.toNat) rem t))
                  (rem - calculateOptimalAntsForPath (getStateD states bp.toNat) rem t)
                  (idx + calculateOptimalAntsForPath (getStateD states bp.toNat) rem t)).2.2.2) := by
          rw [distGo, if_pos hpos, hfb]
        have hinv2 : ∀ s2 ∈ updatePathState states bp.toNat
            (calculateOptimalAntsForPath (getStateD states bp.toNat) rem t), StateInv s2 :=
          updatePathState_inv states bp.toNat _ (by omega) hinv
        have hne2 : updatePathState states bp.toNat
            (calculateOptimalAntsForPath (getStateD states bp.toNat) rem t) ≠ [] := by
          intro habs
          have := updatePathState_length states bp.toNat
            (calculateOptimalAntsForPath (getStateD states bp.toNat) rem t)
          rw [habs] at this
          exact hne (List.length_eq_zero.mp this.symm)
        have ihr := ih _ (rem - calculateOptimalAntsForPath (getStateD states bp.toNat) rem t)
          (idx + calculateOptimalAntsForPath (getStateD states bp.toNat) rem t)
          hinv2 hne2 (by omega) (by omega)
        refine ⟨?_, ?_, ?_⟩
        · rw [hstep]
          exact ihr.1
        · rw [hstep]
          rw [List.map_append, batchAnts_map_id, ihr.2.1]
          have hsplit : rem.toNat
              = (calculateOptimalAntsForPath (getStateD states bp.toNat) rem t).toNat
                + (rem - calculateOptimalAntsForPath (getStateD states bp.toNat) rem t).toNat := by
            omega
          rw [hsplit, List.range_add, List.map_append, List.map_map]
          congr 1
          apply List.map_congr_left
          intro k _
          show idx + calculateOptimalAntsForPath (getStateD states bp.toNat) rem t + (k : Int) + 1
            = idx + ((((calculateOptimalAntsForPath (getStateD states bp.toNat) rem t).toNat
                + k : Nat) : Int)) + 1
          push_cast
          rw [Int.toNat_of_nonneg (by omega)]
          ring
        · rw [hstep]
          intro a ha
          rcases List.mem_append.mp ha with hab | har
          · obtain ⟨hpos1, hpath, k, hk0, hdel⟩ := batchAnts_mem _ _ _ _ a hab
            have hdb := calculateAntDelay_bounds (getStateD states bp.toNat) k hk0
              hstinv.1 hstinv.2.2.2
            obtain ⟨bb, hbb, hbbp, hbbd⟩ := batchAnts_head (getStateD states bp.toNat) bp
              (calculateOptimalAntsForPath (getStateD states bp.toNat) rem t) idx hn1
            refine ⟨hpos1, ?_, ?_, ?_, ⟨_, hstmem, hpath⟩, ?_⟩
            · rw [hdel]; exact hdb.1
            · rw [hdel, hpath]; exact hdb.2
            · rw [hpath]; exact hstinv.1
            · exact ⟨bb, List.mem_append_left _ hbb, by rw [hbbp, hpath], hbbd⟩
          · obtain ⟨h1, h2, h3, h4, ⟨s2, hs2, hp2⟩, bb, hbb, hbbp, hbbd⟩ := ihr.2.2 a har
            obtain ⟨s3, hs3, hp3⟩ := updatePathState_paths _ _ _ s2 hs2
            exact ⟨h1, h2, h3, h4, ⟨s3, hs3, by rw [hp2, hp3]⟩,
              bb, List.mem_append_right _ hbb, hbbp, hbbd⟩
      · have hrem0 : rem = 0 := by omega
        have hstep : distGo (n + 1) states rem idx = ([], states, [], true) := by
          rw [distGo, if_neg hpos]
        rw [hstep]
        refine ⟨rfl, ?_, ?_⟩
        · rw [hrem0]
          rfl
        · intro a ha
          cases ha

/-! ## C10 — the distributor assigns every ant -/

/-- Paths found for a colony whose start and end differ have at least two
rooms. -/
theorem FindPaths_len_ge_two (c : Colony) (fuel : Nat) (p : Path)
    (hp : p ∈ FindPaths c fuel) (hse : c.start ≠ c.endRoom) : 2 ≤ p.length := by
  obtain ⟨hh, hl, _⟩ := FindPaths_wellformed c fuel p hp
  match p with
  | [] => cases hh
  | [x] =>
      rw [show ([x] : Path).head? = some x from rfl] at hh
      rw [show ([x] : Path).getLast? = some x from rfl] at hl
      have hx1 : x = c.start := Option.some_injective _ hh
      have hx2 : x = c.endRoom := Option.some_injective _ hl
      exact absurd (hx1.symm.trans hx2) hse
  | x :: y :: rest => simp

theorem initializePathStates_inv (paths : List Path) (c : Colony)
    (h2 : ∀ p ∈ paths, 2 ≤ p.length) :
    ∀ s ∈ initializePathStates paths c, StateInv s := by
  intro s hs
  unfold initializePathStates at hs
  rw [List.mem_map] at hs
  obtain ⟨p, hp, rfl⟩ := hs
  have := calculatePathEfficiency_bounds p c
  exact ⟨h2 p hp, le_refl 0, this.1, this.2⟩

theorem initializePathStates_path_mem (paths : List Path) (c : Colony) :
    ∀ s ∈ initializePathStates paths c, s.path ∈ paths := by
  intro s hs
  unfold initializePathStates at hs
  rw [List.mem_map] at hs
  obtain ⟨p, hp, rfl⟩ := hs
  exact hp

/-- **C10.**  Given a positive agent count and a nonempty path list, the
distributor terminates, assigns each of the `NumAnts` ants (dense 1-based
identities, in order), leaves each at the not-departed position with a
nonnegative startup delay of at most the path's edge count minus one, and
each assigned path is one of the enumerated paths. -/
theorem C10_distributor_assigns_all (c : Colony) (fuel : Nat)
    (hne : FindPaths c fuel ≠ []) (hse : c.start ≠ c.endRoom) (hn : 1 ≤ c.numAnts) :
    (distributeAnts c.numAnts (initializePathStates (FindPaths c fuel) c)).2.2.2 = true ∧
    ((distributeAnts c.numAnts (initializePathStates (FindPaths c fuel) c)).1.map
        (fun a => a.id))
      = (List.range c.numAnts.toNat).map (fun k : Nat => (k : Int) + 1) ∧
    (∀ a ∈ (distributeAnts c.numAnts (initializePathStates (FindPaths c fuel) c)).1,
        a.position = -1 ∧ 0 ≤ a.delay ∧ a.delay ≤ ((a.path.length : Int) - 1) - 1 ∧
        a.path ∈ FindPaths c fuel) := by
  have hinv := initializePathStates_inv (FindPaths c fuel) c
    (fun p hp => FindPaths_len_ge_two c fuel p hp hse)
  have hne2 : initializePathStates (FindPaths c fuel) c ≠ [] := by
    intro habs
    apply hne
    unfold initializePathStates at habs
    exact List.map_eq_nil.mp habs
  have hspec := distGo_spec (c.numAnts.toNat + 1)
    (initializePathStates (FindPaths c fuel) c) c.numAnts 0 hinv hne2 (by omega) (by omega)
  refine ⟨hspec.1, ?_, ?_⟩
  · rw [show distributeAnts c.numAnts (initializePathStates (FindPaths c fuel) c)
        = distGo (c.numAnts.toNat + 1) (initializePathStates (FindPaths c fuel) c)
            c.numAnts 0 from rfl]
    rw [hspec.2.1]
    apply List.map_congr_left
    intro k _
    ring
  · intro a ha
    obtain ⟨h1, h2, h3, _, ⟨s, hs, hps⟩, _⟩ := hspec.2.2 a ha
    refine ⟨h1, h2, by omega, ?_⟩
    rw [hps]
    exact initializePathStates_path_mem (FindPaths c fuel) c s hs

/-- Witness for `C10_distributor_assigns_all` on `cTwin`. -/
theorem C10_distributor_assigns_all_witness :
    (FindPaths cTwin 12 ≠ [] ∧ cTwin.start ≠ cTwin.endRoom ∧ 1 ≤ cTwin.numAnts) ∧
    (distributeAnts cTwin.numAnts
      (initializePathStates (FindPaths cTwin 12) cTwin)).2.2.2 = true :=
  ⟨by decide, (C10_distributor_assigns_all cTwin 12 (by decide) (by decide) (by decide)).1⟩

/-! ## Simulator metatheory -/

/-- The terminal position index of an ant's path. -/
def finalPos (a : Ant) : Int := (a.path.length : Int) - 1

/-- An ant that has reached the end of its path. -/
def isFinal (a : Ant) : Prop := a.position = finalPos a

/-- An ant the turn loop would attempt to move this turn: not yet at the
end, and not still waiting out its startup delay. -/
def isCandidate (a : Ant) (turn : Int) : Prop :=
  ¬isFinal a ∧ ¬(a.position = -1 ∧ a.delay > turn)

/-- How one processed turn can change a single ant: either untouched, or
advanced one step (only when it was not at its terminal index). -/
def stepRel (a b : Ant) : Prop :=
  b = a ∨
  (¬isFinal a ∧ b.id = a.id ∧ b.path = a.path ∧ b.delay = a.delay ∧
    b.pathIndex = a.pathIndex ∧ b.position = a.position + 1)

/-- The ant carrying a given identity. -/
def antById (l : List Ant) (i : Int) : Option Ant := l.find? (fun a => a.id == i)

/-- Total remaining distance: the turn-loop variant. -/
def sumDist (l : List Ant) : Int := (l.map (fun a => finalPos a - a.position)).sum

theorem updateAntPosition_spec (a : Ant) :
    (updateAntPosition a).id = a.id ∧ (updateAntPosition a).path = a.path ∧
    (updateAntPosition a).delay = a.delay ∧
    (updateAntPosition a).pathIndex = a.pathIndex ∧
    (updateAntPosition a).position = a.position + 1 := by
  unfold updateAntPosition
  by_cases h : a.position = -1
  · rw [if_pos h]
    refine ⟨rfl, rfl, rfl, rfl, ?_⟩
    rw [h]
    exact show (0 : Int) = -1 + 1 by norm_num
  · rw [if_neg h]
    exact ⟨rfl, rfl, rfl, rfl, rfl⟩

/-- Core facts about one processed turn: the output ants are the input
ants pointwise unchanged-or-advanced, and the move count accounts exactly
for the decrease of the total remaining distance. -/
theorem processAnts_spec (c : Colony) (turn : Int) :
    ∀ (l : List Ant) (occ : List String),
      List.Forall₂ stepRel l (processAnts c turn l occ).1 ∧
      sumDist (processAnts c turn l occ).1
        = sumDist l - ((processAnts c turn l occ).2.2.2 : Int) := by
  intro l
  induction l with
  | nil => intro occ; exact ⟨List.Forall₂.nil, by simp [processAnts, sumDist]⟩
  | cons a rest ih =>
      intro occ
      rw [processAnts]
      by_cases h1 : a.position = (a.path.length : Int) - 1
      · rw [if_pos h1]
        obtain ⟨hf, hm⟩ := ih occ
        refine ⟨List.Forall₂.cons (Or.inl rfl) hf, ?_⟩
        simp only [sumDist, List.map_cons, List.sum_cons] at hm ⊢
        omega
      · rw [if_neg h1]
        by_cases h2 : a.position = -1 ∧ a.delay > turn
        · rw [if_pos h2]
          obtain ⟨hf, hm⟩ := ih occ
          refine ⟨List.Forall₂.cons (Or.inl rfl) hf, ?_⟩
          simp only [sumDist, List.map_cons, List.sum_cons] at hm ⊢
          omega
        · rw [if_neg h2]
          by_cases h3 : canMoveToRoom (getNextRoom a) occ c = false
          · rw [if_pos h3]
            obtain ⟨hf, hm⟩ := ih occ
            refine ⟨List.Forall₂.cons (Or.inl rfl) hf, ?_⟩
            simp only [sumDist, List.map_cons, List.sum_cons] at hm ⊢
            omega
          · rw [if_neg h3]
            obtain ⟨hf, hm⟩ := ih (getNextRoom a :: occ)
            obtain ⟨hid, hpath, hdel, hpi, hposn⟩ := updateAntPosition_spec a
            refine ⟨List.Forall₂.cons (Or.inr ⟨h1, hid, hpath, hdel, hpi, hposn⟩) hf, ?_⟩
            have hfp : finalPos (updateAntPosition a) = finalPos a := by
              unfold finalPos
              rw [hpath]
            simp only [sumDist, List.map_cons, List.sum_cons] at hm ⊢
            rw [hfp, hposn]
            push_cast
            omega

/-- If some candidate exists and nothing is yet marked occupied, the turn
makes at least one move (the first candidate in processing order always
succeeds, since only movers mark rooms). -/
theorem processAnts_moves (c : Colony) (turn : Int) :
    ∀ (l : List Ant), (∃ a ∈ l, isCandidate a turn) →
      (processAnts c turn l []).2.2.2 ≠ 0 := by
  intro l
  induction l with
  | nil => rintro ⟨a, ha, _⟩; cases ha
  | cons a rest ih =>
      rintro ⟨w, hw, hcand⟩
      rw [processAnts]
      by_cases h1 : a.position = (a.path.length : Int) - 1
      · rw [if_pos h1]
        rcases List.mem_cons.mp hw with rfl | hw2
        · exact absurd h1 hcand.1
        · exact ih ⟨w, hw2, hcand⟩
      · rw [if_neg h1]
        by_cases h2 : a.position = -1 ∧ a.delay > turn
        · rw [if_pos h2]
          rcases List.mem_cons.mp hw with rfl | hw2
          · exact absurd h2 hcand.2
          · exact ih ⟨w, hw2, hcand⟩
        · rw [if_neg h2]
          have h3 : canMoveToRoom (getNextRoom a) [] c ≠ false := by
            unfold canMoveToRoom
            simp
          rw [if_neg h3]
          dsimp only
          omega

/-- Ant identities are preserved (in order) by one processed turn. -/
theorem forall₂_map_id {l l' : List Ant} (h : List.Forall₂ stepRel l l') :
    l'.map (fun a => a.id) = l.map (fun a => a.id) := by
  induction h with
  | nil => rfl
  | cons hab _ ih =>
      rw [List.map_cons, List.map_cons, ih]
      rcases hab with rfl | ⟨_, hid, _⟩
      · rfl
      · rw [hid]

theorem forall₂_mem_right {R : Ant → Ant → Prop} :
    ∀ {l l' : List Ant}, List.Forall₂ R l l' → ∀ b ∈ l', ∃ a ∈ l, R a b := by
  intro l l' h
  induction h with
  | nil => intro b hb; cases hb
  | cons hab _ ih =>
      intro b hb
      rcases List.mem_cons.mp hb with rfl | hb2
      · exact ⟨_, List.mem_cons_self _ _, hab⟩
      · obtain ⟨a2, ha2, hr⟩ := ih b hb2
        exact ⟨a2, List.mem_cons_of_mem _ ha2, hr⟩

theorem forall₂_mem_left {R : Ant → Ant → Prop} :
    ∀ {l l' : List Ant}, List.Forall₂ R l l' → ∀ a ∈ l, ∃ b ∈ l', R a b := by
  intro l l' h
  induction h with
  | nil => intro a ha; cases ha
  | cons hab _ ih =>
      intro a ha
      rcases List.mem_cons.mp ha with rfl | ha2
      · exact ⟨_, List.mem_cons_self _ _, hab⟩
      · obtain ⟨b2, hb2, hr⟩ := ih a ha2
        exact ⟨b2, List.mem_cons_of_mem _ hb2, hr⟩

/-- `stepRel` preserves path, delay and identity. -/
theorem stepRel_stable {a b : Ant} (h : stepRel a b) :
    b.path = a.path ∧ b.delay = a.delay ∧ b.id = a.id ∧ finalPos b = finalPos a := by
  rcases h with rfl | ⟨_, hid, hpath, hdel, _, _⟩
  · exact ⟨rfl, rfl, rfl, rfl⟩
  · exact ⟨hpath, hdel, hid, by unfold finalPos; rw [hpath]⟩

/-- `stepRel` moves the position by zero or one, and only from a
non-terminal position. -/
theorem stepRel_pos {a b : Ant} (h : stepRel a b) :
    b.position = a.position ∨
    (b.position = a.position + 1 ∧ a.position ≠ finalPos a) := by
  rcases h with rfl | ⟨hnf, _, _, _, _, hpos⟩
  · exact Or.inl rfl
  · exact Or.inr ⟨hpos, hnf⟩

/-- The sort is a permutation of the ant slice (helper, also underlying
the C8 theorem). -/
theorem sortAnts_perm (ants : List Ant) (endName : String) (turn : Int) :
    (sortAntsByPriority ants endName turn).Perm ants :=
  List.perm_insertionSort _ ants

/-- `sumDist` is permutation invariant. -/
theorem sumDist_perm {l l' : List Ant} (h : l.Perm l') : sumDist l = sumDist l' :=
  List.Perm.sum_eq (List.Perm.map _ h)

/-- The invariant the turn loop maintains from the distributor's output. -/
def SimInv (ants : List Ant) (turn : Int) : Prop :=
  (∀ a ∈ ants, -1 ≤ a.position ∧ a.position ≤ finalPos a ∧ a.position ≤ turn - 1) ∧
  (∀ a ∈ ants, a.delay ≤ (a.path.length : Int) - 2 ∧ 2 ≤ a.path.length) ∧
  (∀ a ∈ ants, ∃ b ∈ ants, b.path = a.path ∧ b.delay = 0)

theorem simTurn_forall₂ (c : Colony) (ants : List Ant) (turn : Int) :
    List.Forall₂ stepRel (sortAntsByPriority ants c.endRoom turn) (simTurn c ants turn).1 :=
  (processAnts_spec c turn (sortAntsByPriority ants c.endRoom turn) []).1

theorem simTurn_sumDist (c : Colony) (ants : List Ant) (turn : Int) :
    sumDist (simTurn c ants turn).1 = sumDist ants - ((simTurn c ants turn).2.2 : Int) := by
  have h := (processAnts_spec c turn (sortAntsByPriority ants c.endRoom turn) []).2
  have hperm := sumDist_perm (sortAnts_perm ants c.endRoom turn)
  unfold simTurn
  dsimp only
  rw [h, hperm]

theorem simTurn_inv (c : Colony) (ants : List Ant) (turn : Int) (h : SimInv ants turn) :
    SimInv (simTurn c ants turn).1 (turn + 1) := by
  obtain ⟨h1, h2, h3⟩ := h
  have hf := simTurn_forall₂ c ants turn
  have hperm := sortAnts_perm ants c.endRoom turn
  refine ⟨?_, ?_, ?_⟩
  · intro b hb
    obtain ⟨a, ha, hr⟩ := forall₂_mem_right hf b hb
    have hamem : a ∈ ants := hperm.mem_iff.mp ha
    obtain ⟨ha1, ha2, ha3⟩ := h1 a hamem
    obtain ⟨_, _, _, hfp⟩ := stepRel_stable hr
    rcases stepRel_pos hr with hps | ⟨hps, hnf⟩
    · rw [hps, hfp]
      exact ⟨ha1, ha2, by omega⟩
    · rw [hps, hfp]
      refine ⟨by omega, by omega, by omega⟩
  · intro b hb
    obtain ⟨a, ha, hr⟩ := forall₂_mem_right hf b hb
    have hamem : a ∈ ants := hperm.mem_iff.mp ha
    obtain ⟨hpath, hdel, _, _⟩ := stepRel_stable hr
    rw [hpath, hdel]
    exact h2 a hamem
  · intro b hb
    obtain ⟨a, ha, hr⟩ := forall₂_mem_right hf b hb
    have hamem : a ∈ ants := hperm.mem_iff.mp ha
    obtain ⟨w, hw, hwpath, hwdel⟩ := h3 a hamem
    have hwsort : w ∈ sortAntsByPriority ants c.endRoom turn := hperm.mem_iff.mpr hw
    obtain ⟨w2, hw2, hr2⟩ := forall₂_mem_left hf w hwsort
    obtain ⟨hw2path, hw2del, _, _⟩ := stepRel_stable hr2
    obtain ⟨hbpath, _, _, _⟩ := stepRel_stable hr
    exact ⟨w2, hw2, by rw [hw2path, hwpath, hbpath], by rw [hw2del, hwdel]⟩

theorem simTurn_moves (c : Colony) (ants : List Ant) (turn : Int)
    (hJ : SimInv ants turn) (hτ : 0 ≤ turn) (hnf : ∃ a ∈ ants, ¬isFinal a) :
    (simTurn c ants turn).2.2 ≠ 0 := by
  obtain ⟨h1, h2, h3⟩ := hJ
  have hperm := sortAnts_perm ants c.endRoom turn
  apply processAnts_moves
  obtain ⟨a, ha, hanf⟩ := hnf
  by_cases hcand : isCandidate a turn
  · exact ⟨a, hperm.mem_iff.mpr ha, hcand⟩
  · have hwait : a.position = -1 ∧ a.delay > turn := by
      unfold isCandidate at hcand
      tauto
    obtain ⟨b, hb, hbpath, hbdel⟩ := h3 a ha
    by_cases hbf : isFinal b
    · exfalso
      have hlen : b.path.length = a.path.length := by rw [hbpath]
      have hb1 := (h1 b hb).2.2
      unfold isFinal finalPos at hbf
      have hda := (h2 a ha).1
      omega
    · refine ⟨b, hperm.mem_iff.mpr hb, hbf, ?_⟩
      rw [hbdel]
      omega

/-- The turn loop terminates: with fuel exceeding the total remaining
distance, the Go loop exits (flag true) and every completed turn moved at
least one ant. -/
theorem simRun_terminates (c : Colony) : ∀ (fuel : Nat) (ants : List Ant) (turn : Int),
    (∀ a ∈ ants, -1 ≤ a.position ∧ a.position ≤ finalPos a) →
    (sumDist ants).toNat < fuel →
    (simRun c fuel ants turn).2.2.2 = true ∧
    (∀ n ∈ (simRun c fuel ants turn).2.2.1, n ≠ 0) := by
  intro fuel
  induction fuel with
  | zero =>
      intro ants turn _ hfuel
      omega
  | succ m ih =>
      intro ants turn hinv hfuel
      rw [simRun]
      by_cases hz : (simTurn c ants turn).2.2 = 0
      · rw [if_pos hz]
        exact ⟨rfl, by intro n hn; cases hn⟩
      · rw [if_neg hz]
        have hf := simTurn_forall₂ c ants turn
        have hperm := sortAnts_perm ants c.endRoom turn
        have hinv' : ∀ a ∈ (simTurn c ants turn).1,
            -1 ≤ a.position ∧ a.position ≤ finalPos a := by
          intro b hb
          obtain ⟨a, ha, hr⟩ := forall₂_mem_right hf b hb
          have hamem : a ∈ ants := hperm.mem_iff.mp ha
          obtain ⟨ha1, ha2⟩ := hinv a hamem
          obtain ⟨_, _, _, hfp⟩ := stepRel_stable hr
          rcases stepRel_pos hr with hps | ⟨hps, hnf⟩
          · rw [hps, hfp]
            exact ⟨ha1, ha2⟩
          · rw [hps, hfp]
            exact ⟨by omega, by omega⟩
        have hsd0 : 0 ≤ sumDist (simTurn c ants turn).1 := by
          apply List.sum_nonneg
          intro x hx
          rw [List.mem_map] at hx
          obtain ⟨a, ha, rfl⟩ := hx
          have := hinv' a ha
          omega
        have hsd := simTurn_sumDist c ants turn
        have ihr := ih (simTurn c ants turn).1 (turn + 1) hinv' (by omega)
        refine ⟨ihr.1, ?_⟩
        intro n hn
        dsimp only at hn
        rcases List.mem_cons.mp hn with rfl | hn2
        · exact hz
        · exact ihr.2 n hn2

/-! ## C4 — the simulation terminates, and only the final turn is idle -/

/-- **C4.**  On any colony with at least one start→end path and a
positive agent count, the turn loop of the simulator exits after at most
`sumDist` turns (fuel `sumDist + 1` returns with the termination flag
set), and every turn it completes moves at least one ant — only the
final, terminating turn has zero moves. -/
theorem C4_simulation_terminates (c : Colony) (dfsFuel : Nat)
    (hne : FindPaths c dfsFuel ≠ []) (hse : c.start ≠ c.endRoom) (hn : 1 ≤ c.numAnts) :
    (simRun c
        ((sumDist (distributeAnts c.numAnts
            (initializePathStates (FindPaths c dfsFuel) c)).1).toNat + 1)
        (distributeAnts c.numAnts (initializePathStates (FindPaths c dfsFuel) c)).1
        0).2.2.2 = true ∧
    (∀ n ∈ (simRun c
        ((sumDist (distributeAnts c.numAnts
            (initializePathStates (FindPaths c dfsFuel) c)).1).toNat + 1)
        (distributeAnts c.numAnts (initializePathStates (FindPaths c dfsFuel) c)).1
        0).2.2.1, n ≠ 0) := by
  have hinv := initializePathStates_inv (FindPaths c dfsFuel) c
    (fun p hp => FindPaths_len_ge_two c dfsFuel p hp hse)
  have hne2 : initializePathStates (FindPaths c dfsFuel) c ≠ [] := by
    intro habs
    exact hne (List.map_eq_nil_iff.mp habs)
  have hspec := distGo_spec (c.numAnts.toNat + 1)
    (initializePathStates (FindPaths c dfsFuel) c) c.numAnts 0 hinv hne2
    (by omega) (by omega)
  apply simRun_terminates
  · intro a ha
    obtain ⟨h1, _, _, h4, _, _⟩ := hspec.2.2 a ha
    unfold finalPos
    omega
  · omega

/-- Witness for `C4_simulation_terminates` on `cTwin`. -/
theorem C4_simulation_terminates_witness :
    (FindPaths cTwin 12 ≠ [] ∧ cTwin.start ≠ cTwin.endRoom ∧ 1 ≤ cTwin.numAnts) ∧
    (simRun cTwin
      ((sumDist (distributeAnts cTwin.numAnts
          (initializePathStates (FindPaths cTwin 12) cTwin)).1).toNat + 1)
      (distributeAnts cTwin.numAnts (initializePathStates (FindPaths cTwin 12) cTwin)).1
      0).2.2.2 = true :=
  ⟨by decide, (C4_simulation_terminates cTwin 12 (by decide) (by decide) (by decide)).1⟩

/-! ## Tracking one ant across turns -/

theorem antById_some (l : List Ant) (i : Int) (a : Ant) (h : antById l i = some a) :
    a ∈ l ∧ a.id = i := by
  unfold antById at h
  have hm := List.mem_of_find?_eq_some h
  have hp := List.find?_some h
  rw [beq_iff_eq] at hp
  exact ⟨hm, hp⟩

theorem antById_of_mem : ∀ (l : List Ant) (i : Int) (a : Ant),
    (l.map (fun x => x.id)).Nodup → a ∈ l → a.id = i → antById l i = some a := by
  intro l
  induction l with
  | nil => intro i a _ ha _; cases ha
  | cons b rest ih =>
      intro i a hnd ha hai
      rw [List.map_cons, List.nodup_cons] at hnd
      by_cases hb : b.id = i
      · have hfind : antById (b :: rest) i = some b := by
          unfold antById
          exact List.find?_cons_of_pos _ (by rw [beq_iff_eq]; exact hb)
        rcases List.mem_cons.mp ha with rfl | ha2
        · exact hfind
        · exfalso
          apply hnd.1
          rw [List.mem_map]
          exact ⟨a, ha2, by rw [hai, hb]⟩
      · have hab : ¬(a.id == i) = true ∨ a ∈ rest := by
          rcases List.mem_cons.mp ha with rfl | ha2
          · exact Or.inl (by rw [beq_iff_eq]; exact hb)
          · exact Or.inr ha2
        rcases hab with habs | ha2
        · exact absurd (by rw [beq_iff_eq]; exact hai) habs
        · have hfind : antById (b :: rest) i = antById rest i := by
            unfold antById
            exact List.find?_cons_of_neg _ (by rw [beq_iff_eq]; exact hb)
          rw [hfind]
          exact ih i a hnd.2 ha2 hai

theorem antById_perm {l l' : List Ant} (h : l.Perm l')
    (hnd : (l.map (fun x => x.id)).Nodup) (i : Int) : antById l i = antById l' i := by
  have hnd2 : (l'.map (fun x => x.id)).Nodup := ((h.map _).nodup_iff).mp hnd
  cases hfind : antById l i with
  | some a =>
      obtain ⟨hm, hi⟩ := antById_some _ _ _ hfind
      exact (antById_of_mem l' i a hnd2 (h.mem_iff.mp hm) hi).symm
  | none =>
      unfold antById at hfind ⊢
      rw [List.find?_eq_none] at hfind
      symm
      rw [List.find?_eq_none]
      intro x hx
      exact hfind x (h.mem_iff.mpr hx)

/-- How one processed turn relates the ant with a given identity in the
pre- and post-turn slices. -/
def AdjStep (s1 s2 : List Ant) (i : Int) : Prop :=
  (antById s1 i = none ∧ antById s2 i = none) ∨
  ∃ a b, antById s1 i = some a ∧ antById s2 i = some b ∧ stepRel a b

/-- Consecutive states of the turn loop, viewed through one ant. -/
def chainSteps (i : Int) : List (List Ant) → Prop
  | [] => True
  | [_] => True
  | s1 :: s2 :: rest => AdjStep s1 s2 i ∧ chainSteps i (s2 :: rest)

theorem antById_forall₂ : ∀ {l l' : List Ant}, List.Forall₂ stepRel l l' →
    ∀ i : Int, (antById l i = none ∧ antById l' i = none) ∨
      ∃ a b, antById l i = some a ∧ antById l' i = some b ∧ stepRel a b := by
  intro l l' h
  induction h with
  | nil => intro i; exact Or.inl ⟨rfl, rfl⟩
  | @cons a b l2 l2' hab htail ih =>
      intro i
      have hid : b.id = a.id := (stepRel_stable hab).2.2.1
      by_cases hai : a.id = i
      · refine Or.inr ⟨a, b, ?_, ?_, hab⟩
        · unfold antById
          exact List.find?_cons_of_pos _ (by rw [beq_iff_eq]; exact hai)
        · unfold antById
          exact List.find?_cons_of_pos _ (by rw [beq_iff_eq, hid]; exact hai)
      · have h1 : antById (a :: l2) i = antById l2 i := by
          unfold antById
          exact List.find?_cons_of_neg _ (by rw [beq_iff_eq]; exact hai)
        have h2 : antById (b :: l2') i = antById l2' i := by
          unfold antById
          exact List.find?_cons_of_neg _ (by rw [beq_iff_eq, hid]; exact hai)
        rw [h1, h2]
        exact ih i

/-- One simulated turn is an `AdjStep` for every identity, provided the
identities are distinct. -/
theorem simTurn_adj (c : Colony) (ants : List Ant) (turn : Int)
    (hnd : (ants.map (fun x => x.id)).Nodup) (i : Int) :
    AdjStep ants (simTurn c ants turn).1 i := by
  have hperm := sortAnts_perm ants c.endRoom turn
  have hsort : antById ants i = antById (sortAntsByPriority ants c.endRoom turn) i :=
    antById_perm hperm.symm hnd i
  have h := antById_forall₂ (simTurn_forall₂ c ants turn) i
  rcases h with ⟨hn1, hn2⟩ | ⟨a, b, ha, hb, hr⟩
  · exact Or.inl ⟨by rw [hsort]; exact hn1, hn2⟩
  · exact Or.inr ⟨a, b, by rw [hsort]; exact ha, hb, hr⟩

/-- Identities after a turn are the sorted identities, hence a
permutation of the previous ones; distinctness is preserved. -/
theorem simTurn_ids (c : Colony) (ants : List Ant) (turn : Int) :
    ((simTurn c ants turn).1.map (fun x => x.id)).Perm (ants.map (fun x => x.id)) := by
  rw [forall₂_map_id (simTurn_forall₂ c ants turn)]
  exact (sortAnts_perm ants c.endRoom turn).map _

theorem chainSteps_adj (i : Int) : ∀ (states : List (List Ant)),
    chainSteps i states → ∀ k, k + 1 < states.length →
    AdjStep (states.getD k []) (states.getD (k + 1) []) i := by
  intro states
  induction states with
  | nil => intro _ k hk; simp at hk
  | cons s1 rest ih =>
      intro hc k hk
      cases rest with
      | nil => simp at hk
      | cons s2 rest2 =>
          obtain ⟨hadj, hcr⟩ := hc
          cases k with
          | zero => exact hadj
          | succ k2 =>
              have := ih hcr k2 (by simp at hk ⊢; omega)
              exact this

theorem chainSteps_track (i : Int) : ∀ (states : List (List Ant)) (a0 : Ant),
    chainSteps i states → antById (states.getD 0 []) i = some a0 →
    ∀ k, k < states.length → ∃ b, antById (states.getD k []) i = some b ∧
      b.path = a0.path ∧ b.delay = a0.delay ∧ a0.position ≤ b.position := by
  intro states
  induction states with
  | nil => intro a0 _ _ k hk; simp at hk
  | cons s1 rest ih =>
      intro a0 hc h0 k hk
      cases k with
      | zero => exact ⟨a0, h0, rfl, rfl, le_refl _⟩
      | succ k2 =>
          cases rest with
          | nil => simp at hk
          | cons s2 rest2 =>
              obtain ⟨hadj, hcr⟩ := hc
              rcases hadj with ⟨hn1, _⟩ | ⟨a, b, ha, hb, hr⟩
              · rw [show (s1 :: s2 :: rest2 : List (List Ant)).getD 0 [] = s1 from rfl] at h0
                rw [h0] at hn1
                cases hn1
              · rw [show (s1 :: s2 :: rest2 : List (List Ant)).getD 0 [] = s1 from rfl] at h0
                rw [h0] at ha
                have haa : a = a0 := Option.some_injective _ ha.symm
                subst haa
                obtain ⟨hbp, hbd, _, _⟩ := stepRel_stable hr
                have hbpos : a.position ≤ b.position := by
                  rcases stepRel_pos hr with hp | ⟨hp, _⟩ <;> omega
                obtain ⟨bk, hbk, hbkp, hbkd, hbkpos⟩ := ih b hcr hb k2
                  (by simp at hk ⊢; omega)
                exact ⟨bk, hbk, by rw [hbkp, hbp], by rw [hbkd, hbd], by omega⟩

theorem chainSteps_absorb (i : Int) (states : List (List Ant)) (a0 : Ant)
    (hc : chainSteps i states)
    (htrack : ∀ k, k < states.length → ∃ b, antById (states.getD k []) i = some b ∧
        b.path = a0.path)
    (K : Nat) (hK : K < states.length)
    (hKfin : ∃ b, antById (states.getD K []) i = some b ∧ b.position = finalPos a0) :
    ∀ d, K + d < states.length →
      ∃ b, antById (states.getD (K + d) []) i = some b ∧ b.position = finalPos a0 := by
  intro d
  induction d with
  | zero => intro _; exact hKfin
  | succ e ihe =>
      intro hlt
      obtain ⟨b, hb, hbfin⟩ := ihe (by omega)
      have hadj := chainSteps_adj i states hc (K + e) (by omega)
      rcases hadj with ⟨hn1, _⟩ | ⟨x, y, hx, hy, hr⟩
      · rw [hb] at hn1
        cases hn1
      · rw [hb] at hx
        have hxb : x = b := Option.some_injective _ hx.symm
        subst hxb
        obtain ⟨bp, hbp, hbpath⟩ := htrack (K + e) (by omega)
        rw [hb] at hbp
        have hbpb : bp = x := Option.some_injective _ hbp.symm
        have hxfin : isFinal x := by
          unfold isFinal finalPos
          rw [show x.path = a0.path by rw [← hbpb, hbpath]]
          exact hbfin
        rcases hr with rfl | ⟨hnf, _⟩
        · exact ⟨y, by rw [show K + (e + 1) = K + e + 1 by omega]; exact hy, hbfin⟩
        · exact absurd hxfin hnf

/-- The master lemma for C3: under the distributor invariants the turn
loop terminates with every ant at its terminal index, and the state
trace is a `stepRel` chain for every ant identity. -/
theorem simRun_master (c : Colony) : ∀ (fuel : Nat) (ants : List Ant) (turn : Int),
    SimInv ants turn → 0 ≤ turn → (ants.map (fun x => x.id)).Nodup →
    (sumDist ants).toNat < fuel →
    (∀ i, chainSteps i (ants :: (simRun c fuel ants turn).2.1)) ∧
    (∀ a ∈ ((simRun c fuel ants turn).2.1).getLastD ants, isFinal a) := by
  intro fuel
  induction fuel with
  | zero =>
      intro ants turn _ _ _ hfuel
      omega
  | succ m ih =>
      intro ants turn hJ hτ hnd hfuel
      rw [simRun]
      by_cases hz : (simTurn c ants turn).2.2 = 0
      · rw [if_pos hz]
        refine ⟨fun i => trivial, ?_⟩
        intro a ha
        by_contra hnf
        exact simTurn_moves c ants turn hJ hτ ⟨a, ha, hnf⟩ hz
      · rw [if_neg hz]
        have hJ2 := simTurn_inv c ants turn hJ
        have hnd2 : ((simTurn c ants turn).1.map (fun x => x.id)).Nodup :=
          (simTurn_ids c ants turn).nodup_iff.mpr hnd
        have hinv' : ∀ a ∈ (simTurn c ants turn).1,
            -1 ≤ a.position ∧ a.position ≤ finalPos a := by
          intro b hb
          exact ⟨(hJ2.1 b hb).1, (hJ2.1 b hb).2.1⟩
        have hsd0 : 0 ≤ sumDist (simTurn c ants turn).1 := by
          apply List.sum_nonneg
          intro x hx
          rw [List.mem_map] at hx
          obtain ⟨a, ha, rfl⟩ := hx
          have := hinv' a ha
          omega
        have hsd := simTurn_sumDist c ants turn
        have ihr := ih (simTurn c ants turn).1 (turn + 1) hJ2 (by omega) hnd2 (by omega)
        refine ⟨?_, ?_⟩
        · intro i
          dsimp only
          exact ⟨simTurn_adj c ants turn hnd i, ihr.1 i⟩
        · dsimp only
          rw [List.getLastD_cons]
          exact ihr.2

/-! ## C3 — each ant's position is monotone and reaches the end once -/

/-- The ants the full pipeline hands to the simulator. -/
def pipelineAnts (c : Colony) (dfsFuel : Nat) : List Ant :=
  (distributeAnts c.numAnts (initializePathStates (FindPaths c dfsFuel) c)).1

/-- The simulation states of the full pipeline run: the initial ant slice
followed by the slice at the end of each completed turn. -/
def pipelineStates (c : Colony) (dfsFuel : Nat) : List (List Ant) :=
  pipelineAnts c dfsFuel ::
    (simRun c ((sumDist (pipelineAnts c dfsFuel)).toNat + 1)
      (pipelineAnts c dfsFuel) 0).2.1

theorem getD_last : ∀ (xs : List (List Ant)) (x : List Ant),
    (x :: xs : List (List Ant)).getD ((x :: xs).length - 1) [] = xs.getLastD x := by
  intro xs
  induction xs with
  | nil => intro x; rfl
  | cons y ys ih =>
      intro x
      rw [List.getLastD_cons]
      have h1 : (x :: y :: ys : List (List Ant)).length - 1 = (y :: ys : List (List Ant)).length := by
        simp
      rw [h1]
      have h2 : (x :: y :: ys : List (List Ant)).getD ((y :: ys : List (List Ant)).length) []
          = (y :: ys : List (List Ant)).getD ((y :: ys : List (List Ant)).length - 1) [] := by
        simp [List.getD_cons_succ]
      rw [h2, ih y]

/-- **C3.**  In the full pipeline run on a valid colony, every ant's
position, tracked by identity through the state trace, advances by at
most one per turn and never regresses, and there is a single threshold
turn `K` before which the ant is strictly below its terminal index and
from which on it sits exactly at the terminal index — it reaches the end
exactly once and never moves again. -/
theorem C3_position_monotone_reaches_final_once (c : Colony) (dfsFuel : Nat)
    (hne : FindPaths c dfsFuel ≠ []) (hse : c.start ≠ c.endRoom) (hn : 1 ≤ c.numAnts)
    (i : Int) (hi : ∃ a ∈ pipelineAnts c dfsFuel, a.id = i) :
    ∃ a0 ∈ pipelineAnts c dfsFuel, a0.id = i ∧
    ∃ K, K < (pipelineStates c dfsFuel).length ∧
      (∀ k, k < (pipelineStates c dfsFuel).length →
        ∃ b, antById ((pipelineStates c dfsFuel).getD k []) i = some b ∧
          b.path = a0.path ∧ (b.position = finalPos a0 ↔ K ≤ k)) ∧
      (∀ k, k + 1 < (pipelineStates c dfsFuel).length →
        ∀ b b2, antById ((pipelineStates c dfsFuel).getD k []) i = some b →
          antById ((pipelineStates c dfsFuel).getD (k + 1) []) i = some b2 →
          b2.position = b.position ∨ b2.position = b.position + 1) := by
  classical
  obtain ⟨a0, ha0, ha0i⟩ := hi
  -- distributor facts
  have hinv := initializePathStates_inv (FindPaths c dfsFuel) c
    (fun p hp => FindPaths_len_ge_two c dfsFuel p hp hse)
  have hne2 : initializePathStates (FindPaths c dfsFuel) c ≠ [] := by
    intro habs
    exact hne (List.map_eq_nil_iff.mp habs)
  have hspec := distGo_spec (c.numAnts.toNat + 1)
    (initializePathStates (FindPaths c dfsFuel) c) c.numAnts 0 hinv hne2
    (by omega) (by omega)
  have hants : ∀ a ∈ pipelineAnts c dfsFuel,
      a.position = -1 ∧ 0 ≤ a.delay ∧ a.delay ≤ (a.path.length : Int) - 2 ∧
      2 ≤ a.path.length ∧
      ∃ b ∈ pipelineAnts c dfsFuel, b.path = a.path ∧ b.delay = 0 := by
    intro a ha
    obtain ⟨h1, h2, h3, h4, _, h6⟩ := hspec.2.2 a ha
    exact ⟨h1, h2, h3, h4, h6⟩
  have hnodup : ((pipelineAnts c dfsFuel).map (fun x => x.id)).Nodup := by
    have hids : (pipelineAnts c dfsFuel).map (fun x => x.id)
        = (List.range c.numAnts.toNat).map (fun k : Nat => (0 : Int) + (k : Int) + 1) :=
      hspec.2.1
    rw [hids]
    apply List.Nodup.map ?_ (List.nodup_range _)
    intro a b hab
    have hab2 : (a : Int) = b := by simpa using hab
    exact_mod_cast hab2
  have hJ : SimInv (pipelineAnts c dfsFuel) 0 := by
    refine ⟨?_, ?_, ?_⟩
    · intro a ha
      obtain ⟨h1, _, _, h4, _⟩ := hants a ha
      unfold finalPos
      omega
    · intro a ha
      obtain ⟨_, _, h3, h4, _⟩ := hants a ha
      exact ⟨h3, h4⟩
    · intro a ha
      exact (hants a ha).2.2.2.2
  -- run the simulation to completion
  have hmaster := simRun_master c ((sumDist (pipelineAnts c dfsFuel)).toNat + 1)
    (pipelineAnts c dfsFuel) 0 hJ (le_refl 0) hnodup (by omega)
  have hchain : chainSteps i (pipelineStates c dfsFuel) := hmaster.1 i
  have h0 : antById ((pipelineStates c dfsFuel).getD 0 []) i = some a0 := by
    rw [show (pipelineStates c dfsFuel).getD 0 [] = pipelineAnts c dfsFuel from rfl]
    exact antById_of_mem _ i a0 hnodup ha0 ha0i
  have htrack := chainSteps_track i (pipelineStates c dfsFuel) a0 hchain h0
  have hlenpos : 0 < (pipelineStates c dfsFuel).length := by
    unfold pipelineStates
    simp
  -- the last state is all-final
  have hlastfin : ∀ a ∈ ((pipelineStates c dfsFuel).getD
      ((pipelineStates c dfsFuel).length - 1) []), isFinal a := by
    unfold pipelineStates
    rw [getD_last]
    exact hmaster.2
  -- the tracked ant is at its terminal index in the last state
  have hlastidx : (pipelineStates c dfsFuel).length - 1 < (pipelineStates c dfsFuel).length := by
    omega
  have hfinlast : ∃ b, antById ((pipelineStates c dfsFuel).getD
      ((pipelineStates c dfsFuel).length - 1) []) i = some b ∧
      b.position = finalPos a0 := by
    obtain ⟨b, hb, hbp, _, _⟩ := htrack _ hlastidx
    refine ⟨b, hb, ?_⟩
    have hbmem := (antById_some _ _ _ hb).1
    have hthis := hlastfin b hbmem
    unfold isFinal at hthis
    rw [show finalPos b = finalPos a0 by unfold finalPos; rw [hbp]] at hthis
    exact hthis
  -- the first turn at which the ant is at its terminal index
  have hex : ∃ K, K < (pipelineStates c dfsFuel).length ∧
      ∃ b, antById ((pipelineStates c dfsFuel).getD K []) i = some b ∧
        b.position = finalPos a0 :=
    ⟨(pipelineStates c dfsFuel).length - 1, hlastidx, hfinlast⟩
  refine ⟨a0, ha0, ha0i, Nat.find hex, (Nat.find_spec hex).1, ?_, ?_⟩
  · intro k hk
    obtain ⟨b, hb, hbp, _, _⟩ := htrack k hk
    refine ⟨b, hb, hbp, ?_, ?_⟩
    · intro hfin
      by_contra hlt
      push_neg at hlt
      exact Nat.find_min hex hlt ⟨hk, b, hb, hfin⟩
    · intro hKk
      have habs := chainSteps_absorb i (pipelineStates c dfsFuel) a0 hchain
        (fun k2 hk2 => by
          obtain ⟨b2, hb2, hb2p, _, _⟩ := htrack k2 hk2
          exact ⟨b2, hb2, hb2p⟩)
        (Nat.find hex) (Nat.find_spec hex).1 (Nat.find_spec hex).2
        (k - Nat.find hex) (by omega)
      rw [show Nat.find hex + (k - Nat.find hex) = k by omega] at habs
      obtain ⟨b2, hb2, hb2fin⟩ := habs
      rw [hb] at hb2
      rw [Option.some_injective _ hb2.symm] at hb2fin
      exact hb2fin
  · intro k hk b b2 hb hb2
    have hadj := chainSteps_adj i (pipelineStates c dfsFuel) hchain k hk
    rcases hadj with ⟨hn1, _⟩ | ⟨x, y, hx, hy, hr⟩
    · rw [hb] at hn1
      cases hn1
    · rw [hb] at hx
      rw [hb2] at hy
      have hxb : b = x := Option.some_injective _ hx
      have hyb : b2 = y := Option.some_injective _ hy
      subst hxb
      subst hyb
      rcases stepRel_pos hr with hp | ⟨hp, _⟩
      · exact Or.inl hp
      · exact Or.inr hp

/-- Witness for `C3_position_monotone_reaches_final_once`: ant 1 on the
`cTwin` pipeline. -/
theorem C3_position_monotone_reaches_final_once_witness :
    (FindPaths cTwin 12 ≠ [] ∧ cTwin.start ≠ cTwin.endRoom ∧ 1 ≤ cTwin.numAnts ∧
      (∃ a ∈ pipelineAnts cTwin 12, a.id = 1)) ∧
    (∃ a0 ∈ pipelineAnts cTwin 12, a0.id = 1 ∧
      ∃ K, K < (pipelineStates cTwin 12).length ∧
        (∀ k, k < (pipelineStates cTwin 12).length →
          ∃ b, antById ((pipelineStates cTwin 12).getD k []) 1 = some b ∧
            b.path = a0.path ∧ (b.position = finalPos a0 ↔ K ≤ k)) ∧
        (∀ k, k + 1 < (pipelineStates cTwin 12).length →
          ∀ b b2, antById ((pipelineStates cTwin 12).getD k []) 1 = some b →
            antById ((pipelineStates cTwin 12).getD (k + 1) []) 1 = some b2 →
            b2.position = b.position ∨ b2.position = b.position + 1)) :=
  ⟨⟨by decide, by decide, by decide, by decide⟩,
   C3_position_monotone_reaches_final_once cTwin 12 (by decide) (by decide) (by decide)
     1 (by decide)⟩

end LemIn
